import Mathlib

/-!
Shallow embedding of the text-circle validator (`src/lib.rs`).

The input string is modelled as a `List Char`; Rust's `str::lines` (splitting
at `"\n"` or `"\r\n"`, final line ending optional) is modelled by
`split_newlines` / `rust_lines`.  Machine integers (`usize`) are modelled by
`Nat`; `Vec` by `List`; fallible indexing (`[i]`, `unwrap`) by `Option`
accessors with a default that is proved unreachable where the claims need it.
-/

namespace TextCircle

/-- Location on the grid: `x` = column, `y` = row, origin at top left
(struct `Location` in the source). -/
structure Location where
  x : Nat
  y : Nat
deriving DecidableEq, Repr

/-- Rust `usize::abs_diff`. -/
def abs_diff (a b : Nat) : Nat := max a b - min a b

/-- Method `Location::manhattan_distance` from the source. -/
def Location.manhattan_distance (l other : Location) : Nat :=
  abs_diff l.x other.x + abs_diff l.y other.y

/-- Node of the search tree (struct `PathStep` in the source). -/
structure PathStep where
  location : Location
  parent : Option Location
  distance : Nat
deriving DecidableEq, Repr

/-- Split a character list at every newline character, keeping every piece
(including a trailing empty piece when the input ends with a newline). -/
def split_newlines : List Char → List (List Char)
  | [] => [[]]
  | c :: rest =>
    if c = '\n' then [] :: split_newlines rest
    else
      match split_newlines rest with
      | [] => [[c]]
      | l :: ls => (c :: l) :: ls

/-- Strip one trailing carriage return, as Rust does for a line terminated by
`"\r\n"`. -/
def strip_cr (l : List Char) : List Char :=
  if l.getLast? = some '\r' then l.dropLast else l

/-- Model of Rust `str::lines` (function `lines` in the source collects it into
a `Vec`): pieces are split at `'\n'`; every piece that was terminated by a
newline has one trailing `'\r'` stripped; a final empty piece (input ended
with a newline) yields no line; a final nonempty piece is kept as is. -/
def rust_lines (s : List Char) : List (List Char) :=
  let pieces := split_newlines s
  pieces.dropLast.map strip_cr ++
    (match pieces.getLast? with
     | some [] => []
     | some l => [l]
     | none => [])

/-- Function `height` from the source. -/
def height (s : List Char) : Nat := (rust_lines s).length

/-- Function `square` from the source.  The source computes
`widths.max().unwrap()` and `widths.min().unwrap()`; the folds below agree
with them whenever the input has at least one line (`unwrap` would panic
otherwise, which is unreachable because `validate_text_circle` returns
earlier on empty input). -/
def square (s : List Char) : Bool :=
  let widths := (rust_lines s).map List.length
  let max_width := widths.foldr max 0
  let min_width := widths.foldr min max_width
  height s == max_width && min_width == max_width

/-- Function `odd` from the source. -/
def odd (s : List Char) : Bool := height s % 2 == 1

/-- First-occurrence deduplication, the semantics of itertools `unique`. -/
def unique_first (seen : List Char) : List Char → List Char
  | [] => []
  | c :: rest =>
    if c ∈ seen then unique_first seen rest
    else c :: unique_first (c :: seen) rest

/-- Function `distinct_characters` from the source: newline characters are
removed, then duplicates are dropped keeping first occurrences. -/
def distinct_characters (s : List Char) : List Char :=
  unique_first [] (s.filter (fun c => c ≠ '\n'))

/-- Function `radius` from the source: integer (truncating) division. -/
def radius (s : List Char) : Nat := height s / 2

/-- Function `character_at` from the source.  The source indexes
`lines(s)[y]` and the row's characters at `x`, panicking out of bounds; the
model returns a default character there, and every caller is used within the
bounds established by the structural checks. -/
def character_at (x y : Nat) (s : List Char) : Char :=
  ((rust_lines s).getD y []).getD x ' '

/-- Function `background_character` from the source: the character at the
centre cell `(r, r)`. -/
def background_character (s : List Char) : Char :=
  character_at (radius s) (radius s) s

/-- Function `required_background` from the source.  The source computes
`sqrt((x.abs_diff(r))^2 + (y.abs_diff(r))^2)` in `f64` and compares it with
`(r - 1) as f64` and `(r + 1) as f64`; for natural-number inputs that
floating-point test is equivalent to the integer comparison below (theorem
`claim3_required_background_agrees_with_float`, which relates this function
to the real-arithmetic transliteration `required_background_float`). -/
def required_background (x y r : Nat) : Bool :=
  let x_offset := abs_diff x r
  let y_offset := abs_diff y r
  let d2 := x_offset * x_offset + y_offset * y_offset
  decide (d2 ≤ (r - 1) * (r - 1)) || decide ((r + 1) * (r + 1) ≤ d2)

/-- Transliteration of the body of `required_background` with exact real
arithmetic in place of `f64`: the distance is the real square root of the
squared offsets, and it is compared with the casts of the truncated
subtraction `r - 1` and of `r + 1`.  For the magnitudes reachable here the
`f64` computation is exact (`sqrt` is correctly rounded and all compared
values are exactly representable), so this is a faithful model of the
floating-point test. -/
def required_background_float (x y r : Nat) : Prop :=
  let d : ℝ :=
    Real.sqrt ((abs_diff x r * abs_diff x r + abs_diff y r * abs_diff y r : Nat) : ℝ)
  d ≤ ((r - 1 : Nat) : ℝ) ∨ ((r + 1 : Nat) : ℝ) ≤ d

/-- Function `missing_background_characters` from the source: scan the rows
(outer loop over `y`) and the characters of each row (inner loop over `x`),
collecting every coordinate whose character differs from the background while
`required_background` holds. -/
def missing_background_characters (s : List Char) : List (Nat × Nat) :=
  let background := background_character s
  let r := radius s
  (rust_lines s).enum.flatMap (fun yline =>
    yline.2.enum.filterMap (fun xc =>
      if xc.2 != background && required_background xc.1 yline.1 r
      then some (xc.1, yline.1) else none))

/-- Function `br_separated_tuples` from the source. -/
def br_separated_tuples (v : List (Nat × Nat)) : String :=
  String.intercalate "<br>"
    (v.map (fun t => "(" ++ toString t.1 ++ ", " ++ toString t.2 ++ ")"))

/-- Function `edge_square` from the source. -/
def edge_square (l : Location) (height : Nat) : Bool :=
  l.x == 0 || l.y == 0 || l.x == height - 1 || l.y == height - 1

/-- Function `neighbours_in_unfound` from the source. -/
def neighbours_in_unfound (candidate : PathStep) (unfound : List Location) :
    List Location :=
  unfound.filter (fun l => l.manhattan_distance candidate.location == 1)

/-- Rust `Vec::swap_remove`: the last element is moved into position `i` and
the length shrinks by one. -/
def swap_remove {α : Type} (v : List α) (i : Nat) : List α :=
  match v.getLast? with
  | none => v
  | some a => (v.set i a).dropLast

/-- The body of the `for neighbour in unfound_neighbours` loop in
`path_out_of_circle`: each neighbour is removed from `unfound` with
`swap_remove` at the position found by `position(|u| u == neighbour)`, and a
new `PathStep` with the candidate as parent is pushed onto the frontier. -/
def expand (candidate : PathStep) (nbrs unfound : List Location)
    (frontier : List PathStep) : List Location × List PathStep :=
  nbrs.foldl (fun acc neighbour =>
    (swap_remove acc.1 (acc.1.findIdx (fun u => u == neighbour)),
     acc.2 ++ [PathStep.mk neighbour (some candidate.location)
                (candidate.distance + 1)]))
    (unfound, frontier)

/-- Stable insertion of a step into a list that is sorted by descending
distance: the new step goes after every element whose distance is at least
its own. -/
def insert_desc (x : PathStep) : List PathStep → List PathStep
  | [] => [x]
  | y :: ys =>
    if x.distance ≤ y.distance then y :: insert_desc x ys else x :: y :: ys

/-- Model of `found_to_check.sort_by(|a, b| b.distance.cmp(&a.distance))`:
Rust `sort_by` is a stable sort, and the comparator orders by descending
`distance`.  A stable sort for a given comparator is extensionally unique,
and this insertion sort is proved to be exactly that: a permutation
(`sort_by_distance_desc_perm`) that is sorted by descending distance
(`sort_by_distance_desc_sorted`) and preserves the relative order of steps
of equal distance (`sort_by_distance_desc_filter`). -/
def sort_by_distance_desc (l : List PathStep) : List PathStep :=
  l.foldl (fun acc x => insert_desc x acc) []

/-- Outcome of one iteration of the search loop in `path_out_of_circle`. -/
inductive StepResult where
  | found : PathStep → List PathStep → StepResult
  | exhausted : StepResult
  | next : List Location → List PathStep → List PathStep → StepResult
deriving Repr, DecidableEq

/-- One iteration of the `loop` in `path_out_of_circle`: if the frontier is
empty, the search is exhausted; otherwise the frontier is stably sorted by
descending distance and the last element is popped (`pop().unwrap()`).  A
popped border cell ends the search; otherwise the unfound neighbours are
moved onto the frontier and the candidate is appended to `checked`. -/
def search_step (h : Nat) (unfound : List Location)
    (frontier checked : List PathStep) : StepResult :=
  let sorted := sort_by_distance_desc frontier
  match sorted.getLast? with
  | none => StepResult.exhausted
  | some candidate =>
    if edge_square candidate.location h then StepResult.found candidate checked
    else
      let nbrs := neighbours_in_unfound candidate unfound
      let p := expand candidate nbrs unfound sorted.dropLast
      StepResult.next p.1 p.2 (checked ++ [candidate])

theorem insert_desc_length (x : PathStep) :
    ∀ l : List PathStep, (insert_desc x l).length = l.length + 1 := by
  intro l
  induction l with
  | nil => rfl
  | cons y ys ih =>
    unfold insert_desc
    by_cases h : x.distance ≤ y.distance <;> simp [h, ih]

theorem sort_foldl_length :
    ∀ (l : List PathStep) (acc : List PathStep),
      (l.foldl (fun acc x => insert_desc x acc) acc).length
        = acc.length + l.length := by
  intro l
  induction l with
  | nil => intro acc; simp
  | cons x xs ih =>
    intro acc
    simp only [List.foldl_cons]
    rw [ih (insert_desc x acc), insert_desc_length]
    simp
    omega

theorem sort_by_distance_desc_length (l : List PathStep) :
    (sort_by_distance_desc l).length = l.length := by
  unfold sort_by_distance_desc
  rw [sort_foldl_length]
  simp

theorem swap_remove_length {α : Type} (v : List α) (i : Nat) (hv : v ≠ []) :
    (swap_remove v i).length = v.length - 1 := by
  unfold swap_remove
  match h : v.getLast? with
  | none => exact absurd (List.getLast?_eq_none_iff.mp h) hv
  | some a => simp [List.length_dropLast, List.length_set]

theorem expand_lengths (c : PathStep) :
    ∀ (nbrs unfound : List Location) (frontier : List PathStep),
      nbrs.length ≤ unfound.length →
      (expand c nbrs unfound frontier).1.length = unfound.length - nbrs.length ∧
      (expand c nbrs unfound frontier).2.length = frontier.length + nbrs.length := by
  intro nbrs
  induction nbrs with
  | nil => intro unfound frontier _; simp [expand]
  | cons n ns ih =>
    intro unfound frontier hle
    have hne : unfound ≠ [] := by
      intro h; rw [h] at hle; simp at hle
    have hlen := swap_remove_length unfound (unfound.findIdx (fun u => u == n)) hne
    have hle' : ns.length ≤ (swap_remove unfound (unfound.findIdx (fun u => u == n))).length := by
      rw [hlen]; simp at hle ⊢; omega
    have := ih (swap_remove unfound (unfound.findIdx (fun u => u == n)))
      (frontier ++ [PathStep.mk n (some c.location) (c.distance + 1)]) hle'
    constructor
    · rw [show expand c (n :: ns) unfound frontier
        = expand c ns (swap_remove unfound (unfound.findIdx (fun u => u == n)))
            (frontier ++ [PathStep.mk n (some c.location) (c.distance + 1)]) from rfl]
      rw [this.1, hlen]; simp; omega
    · rw [show expand c (n :: ns) unfound frontier
        = expand c ns (swap_remove unfound (unfound.findIdx (fun u => u == n)))
            (frontier ++ [PathStep.mk n (some c.location) (c.distance + 1)]) from rfl]
      rw [this.2]; simp; omega

theorem search_step_next_measure (h : Nat) (unfound : List Location)
    (frontier checked : List PathStep) (u : List Location)
    (f c : List PathStep)
    (hstep : search_step h unfound frontier checked = StepResult.next u f c) :
    u.length + f.length + 1 = unfound.length + frontier.length := by
  unfold search_step at hstep
  simp only [] at hstep
  split at hstep
  · exact absurd hstep (by simp)
  · rename_i cand hlast
    split at hstep
    · exact absurd hstep (by simp)
    · rename_i hedge
      simp only [StepResult.next.injEq] at hstep
      obtain ⟨hu, hf, _⟩ := hstep
      have hnb : (neighbours_in_unfound cand unfound).length ≤ unfound.length :=
        List.length_filter_le _ _
      have hex := expand_lengths cand (neighbours_in_unfound cand unfound)
        unfound (sort_by_distance_desc frontier).dropLast hnb
      have hsne : sort_by_distance_desc frontier ≠ [] := by
        intro hnil; rw [hnil] at hlast; simp at hlast
      have hslen : (sort_by_distance_desc frontier).length = frontier.length :=
        sort_by_distance_desc_length frontier
      have hdroplen : (sort_by_distance_desc frontier).dropLast.length
          = frontier.length - 1 := by
        rw [List.length_dropLast, hslen]
      have h1 : (sort_by_distance_desc frontier).length ≥ 1 := by
        cases hcase : sort_by_distance_desc frontier with
        | nil => exact absurd hcase hsne
        | cons a l => simp [hcase]
      rw [← hu, ← hf, hex.1, hex.2, hdroplen]
      omega

/-- The `loop` in `path_out_of_circle`, iterated with explicit fuel so that
the recursion is structural.  The zero-fuel branch is unreachable when the
fuel exceeds `unfound.length + frontier.length`, because every continuing
iteration shrinks that measure by exactly one (`search_step_next_measure`). -/
def search_go (h : Nat) : Nat → List Location → List PathStep → List PathStep →
    Option (PathStep × List PathStep)
  | 0, _, _, _ => none
  | fuel + 1, unfound, frontier, checked =>
    match search_step h unfound frontier checked with
    | StepResult.exhausted => none
    | StepResult.found c chk => some (c, chk)
    | StepResult.next u f c => search_go h fuel u f c

/-- The `loop` in `path_out_of_circle`, iterated to its result: either the
popped candidate on the border together with the `checked` list at that
moment, or `none` when the frontier empties.  The seeded fuel is provably
sufficient, so the loop always ends in one of the source's two `return`s. -/
def search_loop (h : Nat) (unfound : List Location)
    (frontier checked : List PathStep) : Option (PathStep × List PathStep) :=
  search_go h (unfound.length + frontier.length + 1) unfound frontier checked

/-- The lookup `checked_squares.iter().filter(|s| s.location == parent_location)
.collect()[0]` from `path_diagram`: the first checked step at the given
location, `none` when the indexing would panic. -/
def parent_lookup (checked : List PathStep) (p : Location) : Option PathStep :=
  (checked.filter (fun t => t.location == p)).head?

/-- The parent-chain walk of `path_diagram`, collecting the locations from the
terminal step back to the start.  The source walks an unbounded `loop`; the
model uses the step's distance as fuel (each parent link decreases the
distance by one along any chain produced by the search), and returns `none`
where the source would panic on a failed lookup or loop forever. -/
def path_squares_walk (checked : List PathStep) : Nat → PathStep → Option (List Location)
  | 0, step =>
    match step.parent with
    | none => some [step.location]
    | some _ => none
  | fuel + 1, step =>
    match step.parent with
    | none => some [step.location]
    | some p =>
      match parent_lookup checked p with
      | none => none
      | some parent_step =>
        (path_squares_walk checked fuel parent_step).map
          (fun rest => step.location :: rest)

/-- The `potential_paving` filter of function `character_to_pave_with`:
the candidates `['#', 'X', '.']` that collide with no used character, of
which the source takes element `[0]` (panicking if empty). -/
def character_to_pave_with? (s : List Char) : Option Char :=
  (['#', 'X', '.'].filter
    (fun c => (distinct_characters s).all (fun u => u != c))).head?

/-- Function `character_to_pave_with` from the source; the default is proved
unreachable whenever the grid has exactly two distinct characters. -/
def character_to_pave_with (s : List Char) : Char :=
  (character_to_pave_with? s).getD '#'

/-- Function `path_diagram` from the source: replace every cell on the
reconstructed path with the paving character and render the rows joined by
`"<br>"`. -/
def path_diagram (last_step : PathStep) (checked_squares : List PathStep)
    (s : List Char) (h : Nat) : String :=
  let paving := character_to_pave_with s
  let path_squares :=
    (path_squares_walk checked_squares last_step.distance last_step).getD
      [last_step.location]
  let diagram_rows := (List.range h).map (fun y =>
    String.mk ((List.range h).map (fun x =>
      if path_squares.any (fun l => l == Location.mk x y) then paving
      else character_at x y s)))
  String.intercalate "<br>" diagram_rows

/-- The centre cell `Location::new(r, r)` of `path_out_of_circle`. -/
def centre (s : List Char) : Location := Location.mk (radius s) (radius s)

/-- The seeding of the `unfound` pool in `path_out_of_circle`: every cell
whose character equals the background character, except the centre, collected
in row-major order (outer loop over `y in 0..h`, inner over `x in 0..h`). -/
def start_unfound (s : List Char) : List Location :=
  (List.range (height s)).flatMap (fun y =>
    (List.range (height s)).filterMap (fun x =>
      if character_at x y s == background_character s &&
          !(Location.mk x y == centre s)
      then some (Location.mk x y) else none))

/-- Function `path_out_of_circle` from the source: seed `unfound` with every
background cell other than the centre (`start_unfound`), start the search at
the centre with distance `0` and no parent, and render the diagram for a
found path. -/
def path_out_of_circle (s : List Char) : Option String :=
  (search_loop (height s) (start_unfound s) [PathStep.mk (centre s) none 0] []).map
    (fun pr => path_diagram pr.1 pr.2 s (height s))

/-- Function `validate_text_circle` from the source: the checks run in order
(empty, square, odd, two distinct characters, misplaced background, escape
path) and the first failure determines the report. -/
def validate_text_circle (s : List Char) : String :=
  if s.length == 0 then "Invalid. The input is empty."
  else if !(square s) then "Invalid. The input is not square."
  else if !(odd s) then "Invalid. The side length of the square is not odd."
  else if (distinct_characters s).length != 2 then
    "Invalid. The input does not contain 2 distinct characters."
  else
    let missing_background := missing_background_characters s
    if missing_background.length > 0 then
      "Invalid. The following positions (x, y) from (0, 0) at left top should be background character \"" ++
        String.mk [background_character s] ++ "\":<br>" ++
        br_separated_tuples missing_background
    else
      match path_out_of_circle s with
      | some path =>
        "Invalid. There should not be a path from inside the circle to outside:<br><br><code>" ++
          path ++ "</code>"
      | none => "This is a valid text circle of radius " ++ toString (radius s) ++ "."

/-! Specification-side notions used to state the search claims: 4-adjacency,
background cells, and escape paths. -/

/-- Two locations are adjacent when their Manhattan distance is exactly 1. -/
def Adjacent (a b : Location) : Prop := a.manhattan_distance b = 1

/-- A cell of the grid that lies in bounds and holds the background
character. -/
def bg_cell (s : List Char) (l : Location) : Prop :=
  l.x < height s ∧ l.y < height s ∧ character_at l.x l.y s = background_character s

/-- An escape path: a nonempty sequence of background cells, consecutive ones
4-adjacent, starting at the centre and ending on the border of the grid. -/
def escape_path (s : List Char) (p : List Location) : Prop :=
  (∀ l ∈ p, bg_cell s l) ∧ p.Chain' Adjacent ∧ p.head? = some (centre s) ∧
    ∃ e, p.getLast? = some e ∧ edge_square e (height s) = true

/-- Some escape path exists for the grid. -/
def escape_exists (s : List Char) : Prop := ∃ p, escape_path s p

/-- Invariant of the search loop of `path_out_of_circle`, relating the
`unfound` pool, the frontier (`found_to_check`) and the `checked` list. -/
structure Inv (s : List Char) (unfound : List Location)
    (frontier checked : List PathStep) : Prop where
  nodup_locs : ((frontier ++ checked).map PathStep.location).Nodup
  nodup_unfound : unfound.Nodup
  disj : ∀ l ∈ unfound, l ∉ (frontier ++ checked).map PathStep.location
  partition : ∀ l, bg_cell s l ↔
    (l ∈ unfound ∨ l ∈ (frontier ++ checked).map PathStep.location)
  start_mem : ∃ t ∈ frontier ++ checked, t.location = centre s ∧ t.distance = 0
  parent_none : ∀ t ∈ frontier ++ checked, t.parent = none →
    t.location = centre s ∧ t.distance = 0
  parent_link : ∀ t ∈ frontier ++ checked, ∀ p, t.parent = some p →
    ∃ u ∈ checked, u.location = p ∧ u.distance + 1 = t.distance ∧
      Adjacent p t.location
  checked_not_edge : ∀ u ∈ checked, edge_square u.location (height s) = false
  checked_le : ∀ u ∈ checked, ∀ v ∈ frontier, u.distance ≤ v.distance
  frontier_spread : ∀ v ∈ frontier, ∀ w ∈ frontier, v.distance ≤ w.distance + 1
  expanded : ∀ u ∈ checked, ∀ w, bg_cell s w → Adjacent u.location w →
    ∃ t ∈ frontier ++ checked, t.location = w ∧ t.distance ≤ u.distance + 1

/-! ### The stable descending sort: permutation, sortedness, stability -/

theorem insert_desc_perm (x : PathStep) :
    ∀ l : List PathStep, (insert_desc x l).Perm (x :: l) := by
  intro l
  induction l with
  | nil => exact List.Perm.refl _
  | cons y ys ih =>
    unfold insert_desc
    by_cases h : x.distance ≤ y.distance
    · simp only [if_pos h]
      exact (ih.cons y).trans (List.Perm.swap x y ys)
    · simp [h]

theorem sort_foldl_perm :
    ∀ (l acc : List PathStep),
      (l.foldl (fun acc x => insert_desc x acc) acc).Perm (acc ++ l) := by
  intro l
  induction l with
  | nil => intro acc; simp
  | cons x xs ih =>
    intro acc
    simp only [List.foldl_cons]
    refine ((ih (insert_desc x acc)).trans ?_)
    refine (List.Perm.append (insert_desc_perm x acc) (List.Perm.refl xs)).trans ?_
    exact List.perm_middle.symm

theorem sort_by_distance_desc_perm (l : List PathStep) :
    (sort_by_distance_desc l).Perm l := by
  simpa using sort_foldl_perm l []

theorem insert_desc_sorted (x : PathStep) :
    ∀ l : List PathStep,
      List.Pairwise (fun a b => b.distance ≤ a.distance) l →
      List.Pairwise (fun a b => b.distance ≤ a.distance) (insert_desc x l) := by
  intro l
  induction l with
  | nil => intro _; simp [insert_desc]
  | cons y ys ih =>
    intro hp
    rw [List.pairwise_cons] at hp
    unfold insert_desc
    by_cases h : x.distance ≤ y.distance
    · simp only [if_pos h]
      rw [List.pairwise_cons]
      refine ⟨?_, ih hp.2⟩
      intro b hb
      rcases List.mem_cons.mp ((insert_desc_perm x ys).mem_iff.mp hb) with rfl | hbys
      · exact h
      · exact hp.1 b hbys
    · simp only [if_neg h]
      have hlt : y.distance < x.distance := by omega
      rw [List.pairwise_cons]
      refine ⟨?_, List.pairwise_cons.mpr ⟨hp.1, hp.2⟩⟩
      intro b hb
      rcases List.mem_cons.mp hb with rfl | hbys
      · exact le_of_lt hlt
      · exact le_trans (hp.1 b hbys) (le_of_lt hlt)

theorem sort_foldl_sorted :
    ∀ (l acc : List PathStep),
      List.Pairwise (fun a b => b.distance ≤ a.distance) acc →
      List.Pairwise (fun a b => b.distance ≤ a.distance)
        (l.foldl (fun acc x => insert_desc x acc) acc) := by
  intro l
  induction l with
  | nil => intro acc h; simpa using h
  | cons x xs ih =>
    intro acc h
    simp only [List.foldl_cons]
    exact ih (insert_desc x acc) (insert_desc_sorted x acc h)

theorem sort_by_distance_desc_sorted (l : List PathStep) :
    List.Pairwise (fun a b => b.distance ≤ a.distance)
      (sort_by_distance_desc l) :=
  sort_foldl_sorted l [] (by simp)

theorem insert_desc_filter (x : PathStep) (d : Nat) :
    ∀ l : List PathStep,
      List.Pairwise (fun a b => b.distance ≤ a.distance) l →
      (insert_desc x l).filter (fun t => t.distance == d)
        = l.filter (fun t => t.distance == d)
            ++ (if x.distance == d then [x] else []) := by
  intro l
  induction l with
  | nil =>
    intro _
    unfold insert_desc
    rw [List.filter_cons]
    by_cases hx : x.distance = d
    · simp [hx]
    · simp [hx]
  | cons y ys ih =>
    intro hp
    rw [List.pairwise_cons] at hp
    unfold insert_desc
    by_cases h : x.distance ≤ y.distance
    · rw [if_pos h, List.filter_cons, List.filter_cons, ih hp.2]
      by_cases hy : y.distance = d
      · simp [hy]
      · simp [hy]
    · rw [if_neg h]
      by_cases hx : x.distance = d
      · have hempty : (y :: ys).filter (fun t => t.distance == d) = [] := by
          rw [List.filter_eq_nil_iff]
          intro t ht
          have htle : t.distance ≤ y.distance := by
            rcases List.mem_cons.mp ht with rfl | htys
            · exact le_refl _
            · exact hp.1 t htys
          simp
          omega
        rw [List.filter_cons, hempty]
        simp [hx]
      · rw [List.filter_cons, List.filter_cons]
        simp [hx]

theorem sort_foldl_filter (d : Nat) :
    ∀ (l acc : List PathStep),
      List.Pairwise (fun a b => b.distance ≤ a.distance) acc →
      (l.foldl (fun acc x => insert_desc x acc) acc).filter
          (fun t => t.distance == d)
        = acc.filter (fun t => t.distance == d)
            ++ l.filter (fun t => t.distance == d) := by
  intro l
  induction l with
  | nil => intro acc _; simp
  | cons x xs ih =>
    intro acc h
    simp only [List.foldl_cons]
    rw [ih (insert_desc x acc) (insert_desc_sorted x acc h),
      insert_desc_filter x d acc h, List.append_assoc, List.filter_cons]
    by_cases hx : x.distance = d <;> simp [hx]

theorem sort_by_distance_desc_filter (l : List PathStep) (d : Nat) :
    (sort_by_distance_desc l).filter (fun t => t.distance == d)
      = l.filter (fun t => t.distance == d) := by
  have := sort_foldl_filter d l [] (by simp)
  simpa [sort_by_distance_desc] using this

theorem getLast_min_of_sorted :
    ∀ (l : List PathStep) (c : PathStep),
      List.Pairwise (fun a b => b.distance ≤ a.distance) l →
      l.getLast? = some c → ∀ t ∈ l, c.distance ≤ t.distance := by
  intro l
  induction l with
  | nil => intro c _ h; simp at h
  | cons x xs ih =>
    intro c hp hlast t ht
    rw [List.pairwise_cons] at hp
    cases xs with
    | nil =>
      simp at hlast ht
      subst hlast; subst ht
      exact le_refl _
    | cons a as =>
      have hlast' : (a :: as).getLast? = some c := by
        rw [List.getLast?_cons_cons] at hlast
        exact hlast
      have hc : c ∈ a :: as := List.mem_of_getLast?_eq_some hlast'
      rcases List.mem_cons.mp ht with rfl | htxs
      · exact hp.1 c hc
      · exact ih c hp.2 hlast' t htxs

theorem getLast?_filter {α : Type} (p : α → Bool) :
    ∀ (l : List α) (c : α), l.getLast? = some c → p c = true →
      (l.filter p).getLast? = some c := by
  intro l
  induction l with
  | nil => intro c h; simp at h
  | cons x xs ih =>
    intro c hlast hp
    cases xs with
    | nil =>
      simp at hlast
      subst hlast
      simp [List.filter, hp]
    | cons a as =>
      have hlast' : (a :: as).getLast? = some c := by
        rw [List.getLast?_cons_cons] at hlast
        exact hlast
      have hfil := ih c hlast' hp
      rw [List.filter_cons]
      by_cases hpx : p x = true
      · rw [if_pos hpx]
        cases hcase : (a :: as).filter p with
        | nil => rw [hcase] at hfil; simp at hfil
        | cons b bs =>
          rw [hcase] at hfil
          rw [List.getLast?_cons_cons]
          exact hfil
      · rw [if_neg hpx]
        exact hfil

/-! ### Claim C4: the popped frontier member -/

/-- C4: in every iteration of the escape-path search, the element popped
after the stable descending sort (the last element of
`sort_by_distance_desc frontier`, exactly what `search_step` expands) has the
smallest cumulative distance in the frontier, and it is the last element of
the frontier holding that smallest distance — i.e. the most recently
inserted among the equal-smallest, since pushes append at the end and the
stable sort preserves the relative order of equal distances. -/
theorem claim4_pop_smallest_most_recent (frontier : List PathStep)
    (hne : frontier ≠ []) :
    ∃ c, (sort_by_distance_desc frontier).getLast? = some c ∧
      (∀ t ∈ frontier, c.distance ≤ t.distance) ∧
      (frontier.filter (fun t => t.distance == c.distance)).getLast? = some c := by
  have hperm := sort_by_distance_desc_perm frontier
  have hsne : sort_by_distance_desc frontier ≠ [] := by
    intro hn
    have h2 := hperm.symm
    rw [hn] at h2
    exact hne h2.eq_nil
  obtain ⟨c, hc⟩ := Option.isSome_iff_exists.mp (List.getLast?_isSome.mpr hsne)
  refine ⟨c, hc, ?_, ?_⟩
  · intro t ht
    exact getLast_min_of_sorted _ c (sort_by_distance_desc_sorted frontier) hc t
      (hperm.mem_iff.mpr ht)
  · have h1 := getLast?_filter (fun t => t.distance == c.distance)
      (sort_by_distance_desc frontier) c hc (by simp)
    rw [sort_by_distance_desc_filter] at h1
    exact h1

/-- Witness for C4: a frontier with two steps of equal smallest distance;
the popped element is the most recently inserted one. -/
theorem claim4_witness :
    ([PathStep.mk (Location.mk 0 0) none 5,
      PathStep.mk (Location.mk 1 1) none 5] : List PathStep) ≠ [] ∧
    ∃ c, (sort_by_distance_desc
        [PathStep.mk (Location.mk 0 0) none 5,
         PathStep.mk (Location.mk 1 1) none 5]).getLast? = some c ∧
      (∀ t ∈ [PathStep.mk (Location.mk 0 0) none 5,
              PathStep.mk (Location.mk 1 1) none 5], c.distance ≤ t.distance) ∧
      ([PathStep.mk (Location.mk 0 0) none 5,
        PathStep.mk (Location.mk 1 1) none 5].filter
          (fun t => t.distance == c.distance)).getLast? = some c :=
  ⟨by decide, claim4_pop_smallest_most_recent
    [PathStep.mk (Location.mk 0 0) none 5,
     PathStep.mk (Location.mk 1 1) none 5] (by decide)⟩

/-! ### Claim C9: a paving character always exists -/

theorem exists_pave (a b : Char) :
    ∃ c, (['#', 'X', '.'].filter
        (fun c => [a, b].all (fun u => u != c))).head? = some c ∧
      c ≠ a ∧ c ≠ b := by
  by_cases hsharp : '#' ≠ a ∧ '#' ≠ b
  · refine ⟨'#', ?_, hsharp.1, hsharp.2⟩
    have h1 : ([a, b].all (fun u => u != '#')) = true := by
      simp only [List.all_cons, List.all_nil, Bool.and_true, Bool.and_eq_true,
        bne_iff_ne]
      exact ⟨fun h => hsharp.1 h.symm, fun h => hsharp.2 h.symm⟩
    rw [List.filter_cons, if_pos h1]
    simp
  · have hsharp' : '#' = a ∨ '#' = b := by tauto
    have h1 : ([a, b].all (fun u => u != '#')) = false := by
      rcases hsharp' with h | h <;> simp [← h]
    by_cases hX : 'X' ≠ a ∧ 'X' ≠ b
    · refine ⟨'X', ?_, hX.1, hX.2⟩
      have h2 : ([a, b].all (fun u => u != 'X')) = true := by
        simp only [List.all_cons, List.all_nil, Bool.and_true, Bool.and_eq_true,
          bne_iff_ne]
        exact ⟨fun h => hX.1 h.symm, fun h => hX.2 h.symm⟩
      rw [List.filter_cons, if_neg (by simp [h1]), List.filter_cons, if_pos h2]
      simp
    · have hX' : 'X' = a ∨ 'X' = b := by tauto
      have h2 : ([a, b].all (fun u => u != 'X')) = false := by
        rcases hX' with h | h <;> simp [← h]
      by_cases hdot : '.' ≠ a ∧ '.' ≠ b
      · refine ⟨'.', ?_, hdot.1, hdot.2⟩
        have h3 : ([a, b].all (fun u => u != '.')) = true := by
          simp only [List.all_cons, List.all_nil, Bool.and_true, Bool.and_eq_true,
            bne_iff_ne]
          exact ⟨fun h => hdot.1 h.symm, fun h => hdot.2 h.symm⟩
        rw [List.filter_cons, if_neg (by simp [h1]), List.filter_cons,
          if_neg (by simp [h2]), List.filter_cons, if_pos h3]
        simp
      · have hdot' : '.' = a ∨ '.' = b := by tauto
        exfalso
        rcases hsharp' with h | h <;> rcases hX' with h' | h' <;>
          rcases hdot' with h'' | h''
        all_goals first
          | exact absurd (h'.trans h.symm) (by decide)
          | exact absurd (h''.trans h.symm) (by decide)
          | exact absurd (h''.trans h'.symm) (by decide)

theorem pave_spec (s : List Char) (h2 : (distinct_characters s).length = 2) :
    ∃ c, character_to_pave_with? s = some c ∧ c ∉ distinct_characters s := by
  cases hd : distinct_characters s with
  | nil => rw [hd] at h2; simp at h2
  | cons a rest =>
    cases rest with
    | nil => rw [hd] at h2; simp at h2
    | cons b rest2 =>
      cases rest2 with
      | cons c r3 => rw [hd] at h2; simp at h2
      | nil =>
        obtain ⟨c, hc, hca, hcb⟩ := exists_pave a b
        refine ⟨c, ?_, ?_⟩
        · unfold character_to_pave_with?
          rw [hd]
          exact hc
        · simp [List.mem_cons, hca, hcb]

/-- C9: whenever the grid contains exactly two distinct characters, the
filter in `character_to_pave_with` is nonempty (so the `[0]` indexing in the
source never panics) and the chosen paving character differs from both of the
grid's symbols. -/
theorem claim9_paving_exists (s : List Char)
    (h2 : (distinct_characters s).length = 2) :
    (character_to_pave_with? s).isSome = true ∧
    character_to_pave_with s ∉ distinct_characters s := by
  obtain ⟨c, hc, hmem⟩ := pave_spec s h2
  refine ⟨by rw [hc]; rfl, ?_⟩
  unfold character_to_pave_with
  rw [hc]
  exact hmem

/-- Witness for C9 on a concrete two-character grid. -/
theorem claim9_witness :
    (distinct_characters ("#.".data)).length = 2 ∧
    ((character_to_pave_with? ("#.".data)).isSome = true ∧
      character_to_pave_with ("#.".data) ∉ distinct_characters ("#.".data)) :=
  ⟨by decide, claim9_paving_exists ("#.".data) (by decide)⟩

/-! ### Claim C8: the centre cell -/

/-- C8: for every radius `r` the centre coordinates `(r, r)` are classified as
background-required by `required_background`, and for every grid the character
at the centre cell `(radius s, radius s)` equals the background character
(which the source defines as exactly that cell's character). -/
theorem claim8_centre_required_background (r : Nat) (s : List Char) :
    required_background r r r = true ∧
    character_at (radius s) (radius s) s = background_character s := by
  refine ⟨?_, rfl⟩
  simp [required_background, abs_diff]

/-! ### Claim C3: the floating-point band test equals the integer test -/

/-- C3: for every cell `(x, y)` and radius `r ≥ 1`, the source's
floating-point test (`required_background_float`, the distance
`sqrt((x−r)² + (y−r)²)` compared with `r − 1` and `r + 1`) agrees exactly
with the integer comparison `(x−r)² + (y−r)² ≤ (r−1)²` or `≥ (r+1)²` that
`required_background` computes: there is no rounding ambiguity at the band
boundaries. -/
theorem claim3_required_background_agrees_with_float (x y r : Nat)
    (_hr : 1 ≤ r) :
    required_background x y r = true ↔ required_background_float x y r := by
  have h1 : Real.sqrt ((abs_diff x r * abs_diff x r +
        abs_diff y r * abs_diff y r : Nat) : ℝ) ≤ ((r - 1 : Nat) : ℝ) ↔
      abs_diff x r * abs_diff x r + abs_diff y r * abs_diff y r
        ≤ (r - 1) * (r - 1) := by
    rw [Real.sqrt_le_left (Nat.cast_nonneg _)]
    rw [show ((r - 1 : Nat) : ℝ) ^ 2 = (((r - 1) * (r - 1) : Nat) : ℝ) by
      push_cast; ring]
    exact Nat.cast_le
  have h2 : ((r + 1 : Nat) : ℝ) ≤ Real.sqrt ((abs_diff x r * abs_diff x r +
        abs_diff y r * abs_diff y r : Nat) : ℝ) ↔
      (r + 1) * (r + 1) ≤ abs_diff x r * abs_diff x r +
        abs_diff y r * abs_diff y r := by
    rw [Real.le_sqrt (Nat.cast_nonneg _) (Nat.cast_nonneg _)]
    rw [show ((r + 1 : Nat) : ℝ) ^ 2 = (((r + 1) * (r + 1) : Nat) : ℝ) by
      push_cast; ring]
    exact Nat.cast_le
  simp only [required_background, required_background_float, Bool.or_eq_true,
    decide_eq_true_eq]
  rw [h1, h2]

/-- Witness for C3 at the concrete input `x = 0`, `y = 2`, `r = 2`. -/
theorem claim3_witness :
    1 ≤ 2 ∧ (required_background 0 2 2 = true ↔ required_background_float 0 2 2) :=
  ⟨by norm_num, claim3_required_background_agrees_with_float 0 2 2 (by norm_num)⟩

/-! ### Claim C1: the report is determined by the first failing check -/

theorem pairwise_fst_lt_enumFrom {α : Type} :
    ∀ (l : List α) (k : Nat),
      (List.enumFrom k l).Pairwise (fun a b => a.1 < b.1) := by
  intro l
  induction l with
  | nil => intro k; simp
  | cons x xs ih =>
    intro k
    rw [show List.enumFrom k (x :: xs) = (k, x) :: List.enumFrom (k + 1) xs
      from rfl]
    rw [List.pairwise_cons]
    refine ⟨?_, ih (k + 1)⟩
    rintro ⟨i, a⟩ hmem
    have hb := (List.mem_enumFrom hmem).1
    simp only []
    omega

theorem pairwise_fst_lt_enum {α : Type} (l : List α) :
    l.enum.Pairwise (fun a b => a.1 < b.1) :=
  pairwise_fst_lt_enumFrom l 0

theorem mem_inner_missing (s : List Char) (y : Nat) (line : List Char)
    (p : Nat × Nat)
    (hp : p ∈ line.enum.filterMap (fun xc =>
      if xc.2 != background_character s &&
          required_background xc.1 y (radius s)
      then some (xc.1, y) else none)) : p.2 = y := by
  rw [List.mem_filterMap] at hp
  obtain ⟨xc, _, heq⟩ := hp
  by_cases hcond : (xc.2 != background_character s &&
      required_background xc.1 y (radius s)) = true
  · rw [if_pos hcond] at heq
    cases heq
    rfl
  · rw [if_neg hcond] at heq
    exact absurd heq (by simp)

/-- Membership characterization of `missing_background_characters`: exactly
the in-bounds coordinates whose character differs from the background while
`required_background` holds. -/
theorem mem_missing_background (s : List Char) (x y : Nat) :
    (x, y) ∈ missing_background_characters s ↔
      y < height s ∧ x < ((rust_lines s).getD y []).length ∧
      character_at x y s ≠ background_character s ∧
      required_background x y (radius s) = true := by
  unfold missing_background_characters
  simp only []
  rw [List.mem_flatMap]
  constructor
  · rintro ⟨⟨y0, row⟩, hyl, hmem⟩
    rw [List.mem_filterMap] at hmem
    obtain ⟨⟨x0, ch⟩, hxc, heq⟩ := hmem
    simp only [] at hyl hxc heq
    by_cases hcond : (ch != background_character s &&
        required_background x0 y0 (radius s)) = true
    · rw [if_pos hcond] at heq
      have hx : x0 = x ∧ y0 = y := by
        constructor <;> · injection heq with h2; cases h2; rfl
      obtain ⟨rfl, rfl⟩ := hx
      have hyl2 : (rust_lines s)[y0]? = some row :=
        List.mk_mem_enum_iff_getElem?.mp hyl
      have hxc2 : row[x0]? = some ch :=
        List.mk_mem_enum_iff_getElem?.mp hxc
      have hyh : y0 < height s := by
        by_contra hge
        rw [List.getElem?_eq_none (by unfold height at hge; omega)] at hyl2
        exact absurd hyl2 (by simp)
      have hline : (rust_lines s).getD y0 [] = row := by
        rw [List.getD_eq_getElem?_getD, hyl2]
        rfl
      have hxl : x0 < row.length := by
        by_contra hge
        rw [List.getElem?_eq_none (by omega)] at hxc2
        exact absurd hxc2 (by simp)
      have hch : character_at x0 y0 s = ch := by
        unfold character_at
        rw [hline, List.getD_eq_getElem?_getD, hxc2]
        rfl
      rw [Bool.and_eq_true, bne_iff_ne] at hcond
      exact ⟨hyh, hline ▸ hxl, by rw [hch]; exact hcond.1, hcond.2⟩
    · rw [if_neg hcond] at heq
      exact absurd heq (by simp)
  · rintro ⟨hy, hx, hch, hreq⟩
    have hyget : (rust_lines s)[y]? = some ((rust_lines s).getD y []) := by
      rw [List.getElem?_eq_getElem (by unfold height at hy; omega)]
      rw [List.getD_eq_getElem?_getD,
        List.getElem?_eq_getElem (by unfold height at hy; omega)]
      rfl
    refine ⟨(y, (rust_lines s).getD y []), ?_, ?_⟩
    · rw [List.mem_enum_iff_getElem?]
      exact hyget
    · rw [List.mem_filterMap]
      refine ⟨(x, character_at x y s), ?_, ?_⟩
      · rw [List.mem_enum_iff_getElem?]
        show ((rust_lines s).getD y [])[x]? = some (character_at x y s)
        have hx2 : x < ((rust_lines s).getD y []).length := hx
        simp only [character_at, List.getD_eq_getElem?_getD]
        have hx3 : x < ((rust_lines s)[y]?.getD []).length := by
          rw [← List.getD_eq_getElem?_getD]
          exact hx2
        rw [List.getElem?_eq_getElem hx3]
        rfl
      · rw [if_pos (by rw [Bool.and_eq_true, bne_iff_ne]; exact ⟨hch, hreq⟩)]

/-- The offending coordinates are collected in row-major order: strictly
increasing `y`, and strictly increasing `x` within a row. -/
theorem missing_background_row_major (s : List Char) :
    (missing_background_characters s).Pairwise
      (fun a b => a.2 < b.2 ∨ (a.2 = b.2 ∧ a.1 < b.1)) := by
  unfold missing_background_characters
  simp only []
  rw [List.pairwise_flatMap]
  constructor
  · intro yline _
    refine List.Pairwise.filterMap _ ?_ (pairwise_fst_lt_enum yline.2)
    rintro ⟨x1, c1⟩ ⟨x2, c2⟩ hlt b hb b' hb'
    simp only [Option.mem_def] at hb hb'
    by_cases h1 : (c1 != background_character s &&
        required_background x1 yline.1 (radius s)) = true
    · rw [if_pos h1] at hb
      by_cases h2c : (c2 != background_character s &&
          required_background x2 yline.1 (radius s)) = true
      · rw [if_pos h2c] at hb'
        cases hb
        cases hb'
        exact Or.inr ⟨rfl, hlt⟩
      · rw [if_neg h2c] at hb'
        exact absurd hb' (by simp)
    · rw [if_neg h1] at hb
      exact absurd hb (by simp)
  · refine (pairwise_fst_lt_enum (rust_lines s)).imp ?_
    rintro ⟨y1, l1⟩ ⟨y2, l2⟩ hlt p hp q hq
    have hp2 := mem_inner_missing s y1 l1 p hp
    have hq2 := mem_inner_missing s y2 l2 q hq
    exact Or.inl (by rw [hp2, hq2]; exact hlt)

/-- C1: `validate_text_circle` is total, and for every input string it
returns exactly the one report determined by the first failing check in the
order EmptyInput, NotSquare, EvenSideLength, WrongSymbolCount,
MisplacedBackground, EscapePathExists, with the valid message when no check
fails; the misplaced-background report carries the full list of offending
coordinates, which contains exactly the violating coordinates and is in
row-major order. -/
theorem claim1_first_failing_check (s : List Char) :
    ((s = [] ∧ validate_text_circle s = "Invalid. The input is empty.") ∨
     (s ≠ [] ∧ square s = false ∧
       validate_text_circle s = "Invalid. The input is not square.") ∨
     (s ≠ [] ∧ square s = true ∧ odd s = false ∧
       validate_text_circle s =
         "Invalid. The side length of the square is not odd.") ∨
     (s ≠ [] ∧ square s = true ∧ odd s = true ∧
       (distinct_characters s).length ≠ 2 ∧
       validate_text_circle s =
         "Invalid. The input does not contain 2 distinct characters.") ∨
     (s ≠ [] ∧ square s = true ∧ odd s = true ∧
       (distinct_characters s).length = 2 ∧
       missing_background_characters s ≠ [] ∧
       validate_text_circle s =
         "Invalid. The following positions (x, y) from (0, 0) at left top should be background character \"" ++
           String.mk [background_character s] ++ "\":<br>" ++
           br_separated_tuples (missing_background_characters s)) ∨
     (s ≠ [] ∧ square s = true ∧ odd s = true ∧
       (distinct_characters s).length = 2 ∧
       missing_background_characters s = [] ∧
       ∃ d, path_out_of_circle s = some d ∧
         validate_text_circle s =
           "Invalid. There should not be a path from inside the circle to outside:<br><br><code>" ++
             d ++ "</code>") ∨
     (s ≠ [] ∧ square s = true ∧ odd s = true ∧
       (distinct_characters s).length = 2 ∧
       missing_background_characters s = [] ∧
       path_out_of_circle s = none ∧
       validate_text_circle s =
         "This is a valid text circle of radius " ++ toString (radius s) ++ ".")) ∧
    (∀ x y, (x, y) ∈ missing_background_characters s ↔
      y < height s ∧ x < ((rust_lines s).getD y []).length ∧
      character_at x y s ≠ background_character s ∧
      required_background x y (radius s) = true) ∧
    (missing_background_characters s).Pairwise
      (fun a b => a.2 < b.2 ∨ (a.2 = b.2 ∧ a.1 < b.1)) := by
  refine ⟨?_, fun x y => mem_missing_background s x y,
    missing_background_row_major s⟩
  by_cases h0 : s = []
  · subst h0
    exact Or.inl ⟨rfl, rfl⟩
  · have hlen : (s.length == 0) = false := by
      cases s with
      | nil => exact absurd rfl h0
      | cons a l => rfl
    by_cases h1 : square s = true
    · by_cases h2 : odd s = true
      · by_cases h3 : (distinct_characters s).length = 2
        · by_cases h4 : missing_background_characters s = []
          · cases hpath : path_out_of_circle s with
            | some d =>
              refine Or.inr (Or.inr (Or.inr (Or.inr (Or.inr (Or.inl
                ⟨h0, h1, h2, h3, h4, d, rfl, ?_⟩)))))
              unfold validate_text_circle
              rw [if_neg (by rw [hlen]; simp), if_neg (by rw [h1]; simp),
                if_neg (by rw [h2]; simp), if_neg (by rw [h3]; simp)]
              simp only []
              rw [h4, if_neg (by simp), hpath]
            | none =>
              refine Or.inr (Or.inr (Or.inr (Or.inr (Or.inr (Or.inr
                ⟨h0, h1, h2, h3, h4, rfl, ?_⟩)))))
              unfold validate_text_circle
              rw [if_neg (by rw [hlen]; simp), if_neg (by rw [h1]; simp),
                if_neg (by rw [h2]; simp), if_neg (by rw [h3]; simp)]
              simp only []
              rw [h4, if_neg (by simp), hpath]
          · refine Or.inr (Or.inr (Or.inr (Or.inr (Or.inl
              ⟨h0, h1, h2, h3, h4, ?_⟩))))
            unfold validate_text_circle
            rw [if_neg (by rw [hlen]; simp), if_neg (by rw [h1]; simp),
              if_neg (by rw [h2]; simp), if_neg (by rw [h3]; simp)]
            simp only []
            rw [if_pos (List.length_pos.mpr h4)]
        · refine Or.inr (Or.inr (Or.inr (Or.inl ⟨h0, h1, h2, h3, ?_⟩)))
          unfold validate_text_circle
          rw [if_neg (by rw [hlen]; simp), if_neg (by rw [h1]; simp),
            if_neg (by rw [h2]; simp), if_pos (by simp [h3])]
      · have h2' : odd s = false := by simpa using h2
        refine Or.inr (Or.inr (Or.inl ⟨h0, h1, h2', ?_⟩))
        unfold validate_text_circle
        rw [if_neg (by rw [hlen]; simp), if_neg (by rw [h1]; simp),
          if_pos (by rw [h2']; simp)]
    · have h1' : square s = false := by simpa using h1
      refine Or.inr (Or.inl ⟨h0, h1', ?_⟩)
      unfold validate_text_circle
      rw [if_neg (by rw [hlen]; simp), if_pos (by rw [h1']; simp)]

/-! ### Claim C5: the rendered diagram -/

theorem head?_filter_eq_find? {α : Type} (p : α → Bool) :
    ∀ l : List α, (l.filter p).head? = l.find? p := by
  intro l
  induction l with
  | nil => rfl
  | cons x xs ih =>
    rw [List.filter_cons]
    by_cases hp : p x = true
    · rw [if_pos hp, List.find?_cons_of_pos _ hp]
      rfl
    · rw [if_neg hp, List.find?_cons_of_neg _ hp]
      exact ih

/-- C5: when the parent-chain walk of a found step yields the path `chain`,
the rendered diagram is the row-major rendering of the full `h × h` grid in
which every cell on `chain` shows the paving character and every other cell
its original character, with the rows joined by `"<br>"`; and the paving
character is the first element of the fixed preference list
`['#', 'X', '.']` (first-match semantics of `List.find?`) that collides with
neither of the grid's two distinct symbols. -/
theorem claim5_diagram_renders_path (last_step : PathStep)
    (checked : List PathStep) (s : List Char) (h : Nat) (chain : List Location)
    (hwalk : path_squares_walk checked last_step.distance last_step = some chain)
    (h2 : (distinct_characters s).length = 2) :
    ∃ rows : List String,
      path_diagram last_step checked s h = String.intercalate "<br>" rows ∧
      rows.length = h ∧
      (∀ y, y < h → ∃ row, rows[y]? = some row ∧ row.data.length = h ∧
        ∀ x, x < h → row.data[x]? =
          some (if Location.mk x y ∈ chain then character_to_pave_with s
                else character_at x y s)) ∧
      character_to_pave_with? s =
        ['#', 'X', '.'].find?
          (fun c => (distinct_characters s).all (fun u => u != c)) ∧
      character_to_pave_with? s = some (character_to_pave_with s) ∧
      character_to_pave_with s ∉ distinct_characters s := by
  obtain ⟨c, hc, hmem⟩ := pave_spec s h2
  have hpave : character_to_pave_with s = c := by
    unfold character_to_pave_with
    rw [hc]
    rfl
  refine ⟨(List.range h).map (fun y =>
      String.mk ((List.range h).map (fun x =>
        if Location.mk x y ∈ chain then character_to_pave_with s
        else character_at x y s))), ?_, by simp, ?_, ?_, ?_, ?_⟩
  · unfold path_diagram
    simp only []
    rw [hwalk, Option.getD_some]
    congr 1
    refine List.map_congr_left ?_
    intro y _
    congr 1
    refine List.map_congr_left ?_
    intro x _
    congr 1
    simp [List.any_eq_true]
  · intro y hy
    refine ⟨String.mk ((List.range h).map (fun x =>
        if Location.mk x y ∈ chain then character_to_pave_with s
        else character_at x y s)), ?_, ?_, ?_⟩
    · rw [List.getElem?_map, List.getElem?_range hy]
      rfl
    · simp
    · intro x hx
      rw [show (String.mk ((List.range h).map (fun x =>
          if Location.mk x y ∈ chain then character_to_pave_with s
          else character_at x y s))).data
        = (List.range h).map (fun x =>
          if Location.mk x y ∈ chain then character_to_pave_with s
          else character_at x y s) from rfl]
      rw [List.getElem?_map, List.getElem?_range hx]
      rfl
  · unfold character_to_pave_with?
    exact head?_filter_eq_find? _ _
  · rw [hc, hpave]
  · exact hpave ▸ hmem

/-- Witness for C5: the diagram data for the 3×3 grid with a one-cell gap. -/
theorem claim5_witness :
    (path_squares_walk [PathStep.mk (Location.mk 1 1) none 0]
        (PathStep.mk (Location.mk 1 0) (some (Location.mk 1 1)) 1).distance
        (PathStep.mk (Location.mk 1 0) (some (Location.mk 1 1)) 1)
      = some [Location.mk 1 0, Location.mk 1 1] ∧
     (distinct_characters ("#.#\n#.#\n###".data)).length = 2) ∧
    (∃ rows : List String,
      path_diagram (PathStep.mk (Location.mk 1 0) (some (Location.mk 1 1)) 1)
          [PathStep.mk (Location.mk 1 1) none 0] ("#.#\n#.#\n###".data) 3
        = String.intercalate "<br>" rows ∧
      rows.length = 3 ∧
      (∀ y, y < 3 → ∃ row, rows[y]? = some row ∧ row.data.length = 3 ∧
        ∀ x, x < 3 → row.data[x]? =
          some (if Location.mk x y ∈ [Location.mk 1 0, Location.mk 1 1]
                then character_to_pave_with ("#.#\n#.#\n###".data)
                else character_at x y ("#.#\n#.#\n###".data))) ∧
      character_to_pave_with? ("#.#\n#.#\n###".data) =
        ['#', 'X', '.'].find?
          (fun c => (distinct_characters ("#.#\n#.#\n###".data)).all
            (fun u => u != c)) ∧
      character_to_pave_with? ("#.#\n#.#\n###".data) =
        some (character_to_pave_with ("#.#\n#.#\n###".data)) ∧
      character_to_pave_with ("#.#\n#.#\n###".data)
        ∉ distinct_characters ("#.#\n#.#\n###".data)) :=
  ⟨⟨by decide, by decide⟩,
    claim5_diagram_renders_path
      (PathStep.mk (Location.mk 1 0) (some (Location.mk 1 1)) 1)
      [PathStep.mk (Location.mk 1 1) none 0] ("#.#\n#.#\n###".data) 3
      [Location.mk 1 0, Location.mk 1 1] (by decide) (by decide)⟩

/-! ### Semantics of the expansion step -/

theorem swap_remove_findIdx_perm :
    ∀ (v : List Location) (a : Location), a ∈ v →
      (swap_remove v (v.findIdx (fun u => u == a))).Perm (v.erase a) := by
  intro v
  induction v with
  | nil => intro a ha; simp at ha
  | cons x xs ih =>
    intro a ha
    by_cases hxa : x = a
    · subst hxa
      simp only [List.findIdx_cons, beq_self_eq_true, cond_true]
      rw [List.erase_cons_head]
      cases xs with
      | nil =>
        rw [show swap_remove [x] 0 = [] from rfl]
      | cons b bs =>
        unfold swap_remove
        rw [List.getLast?_cons_cons, List.getLast?_eq_getLast _ (by simp)]
        show (((x :: b :: bs).set 0
          ((b :: bs).getLast (by simp))).dropLast).Perm (b :: bs)
        rw [List.set_cons_zero, List.dropLast_cons_of_ne_nil (by simp)]
        have hsplit := List.dropLast_append_getLast (l := b :: bs) (by simp)
        have hstep1 : (((b :: bs).getLast (by simp)) :: (b :: bs).dropLast).Perm
            ((b :: bs).dropLast ++ [(b :: bs).getLast (by simp)]) :=
          (List.perm_append_singleton _ _).symm
        rw [hsplit] at hstep1
        exact hstep1
    · have hxs : a ∈ xs := by
        rcases List.mem_cons.mp ha with h | h
        · exact absurd h.symm hxa
        · exact h
      have hxsne : xs ≠ [] := by
        intro hnil; rw [hnil] at hxs; simp at hxs
      have hxb : (x == a) = false := by simp [hxa]
      simp only [List.findIdx_cons, hxb, cond_false]
      rw [List.erase_cons_tail (by simp [hxa])]
      unfold swap_remove
      have hgl : (x :: xs).getLast? = xs.getLast? := by
        cases xs with
        | nil => exact absurd rfl hxsne
        | cons b bs => exact List.getLast?_cons_cons
      rw [hgl, List.getLast?_eq_getLast _ hxsne]
      show (((x :: xs).set (List.findIdx (fun u => u == a) xs + 1)
        (xs.getLast hxsne)).dropLast).Perm (x :: xs.erase a)
      rw [List.set_cons_succ]
      rw [List.dropLast_cons_of_ne_nil (by
        intro hnil
        have := congrArg List.length hnil
        rw [List.length_set] at this
        exact hxsne (List.length_eq_zero.mp this))]
      refine List.Perm.cons x ?_
      have := ih a hxs
      unfold swap_remove at this
      rw [List.getLast?_eq_getLast _ hxsne] at this
      exact this

theorem expand_frontier_eq (cand : PathStep) :
    ∀ (nbrs unfound : List Location) (frontier : List PathStep),
      (expand cand nbrs unfound frontier).2
        = frontier ++ nbrs.map (fun n =>
            PathStep.mk n (some cand.location) (cand.distance + 1)) := by
  intro nbrs
  induction nbrs with
  | nil => intro unfound frontier; simp [expand]
  | cons n ns ih =>
    intro unfound frontier
    rw [show expand cand (n :: ns) unfound frontier
      = expand cand ns
          (swap_remove unfound (unfound.findIdx (fun u => u == n)))
          (frontier ++ [PathStep.mk n (some cand.location) (cand.distance + 1)])
      from rfl]
    rw [ih]
    simp

theorem expand_unfound_perm (cand : PathStep) :
    ∀ (nbrs unfound : List Location) (frontier : List PathStep),
      nbrs.Nodup → (∀ n ∈ nbrs, n ∈ unfound) →
      (expand cand nbrs unfound frontier).1.Perm (unfound.diff nbrs) := by
  intro nbrs
  induction nbrs with
  | nil => intro unfound frontier _ _; simp [expand]
  | cons n ns ih =>
    intro unfound frontier hnodup hsub
    have hn : n ∈ unfound := hsub n (by simp)
    have hperm1 := swap_remove_findIdx_perm unfound n hn
    have hnodup' : ns.Nodup := (List.nodup_cons.mp hnodup).2
    have hnmem : n ∉ ns := (List.nodup_cons.mp hnodup).1
    have hsub' : ∀ m ∈ ns,
        m ∈ swap_remove unfound (unfound.findIdx (fun u => u == n)) := by
      intro m hm
      have hmu : m ∈ unfound := hsub m (by simp [hm])
      have hmn : m ≠ n := by
        intro hEq; rw [hEq] at hm; exact hnmem hm
      exact hperm1.symm.subset ((List.mem_erase_of_ne hmn).mpr hmu)
    rw [show expand cand (n :: ns) unfound frontier
      = expand cand ns
          (swap_remove unfound (unfound.findIdx (fun u => u == n)))
          (frontier ++ [PathStep.mk n (some cand.location) (cand.distance + 1)])
      from rfl]
    refine (ih _ _ hnodup' hsub').trans ?_
    rw [List.diff_cons]
    exact List.Perm.diff_right ns hperm1

/-! ### Case analysis of one search step -/

theorem search_step_exhausted_iff (h : Nat) (unfound : List Location)
    (frontier checked : List PathStep) :
    search_step h unfound frontier checked = StepResult.exhausted ↔
      frontier = [] := by
  constructor
  · intro hstep
    unfold search_step at hstep
    simp only [] at hstep
    split at hstep
    · rename_i hlast
      rw [List.getLast?_eq_none_iff] at hlast
      have := (sort_by_distance_desc_perm frontier).symm
      rw [hlast] at this
      exact this.eq_nil
    · split at hstep <;> simp at hstep
  · intro hnil
    subst hnil
    rfl

theorem search_step_found_spec (h : Nat) (unfound : List Location)
    (frontier checked : List PathStep) (cand : PathStep) (chk : List PathStep)
    (hstep : search_step h unfound frontier checked
      = StepResult.found cand chk) :
    chk = checked ∧ cand ∈ frontier ∧
      edge_square cand.location h = true ∧
      (∀ t ∈ frontier, cand.distance ≤ t.distance) := by
  unfold search_step at hstep
  simp only [] at hstep
  split at hstep
  · simp at hstep
  · rename_i cand2 hlast
    split at hstep
    · rename_i hedge
      simp only [StepResult.found.injEq] at hstep
      obtain ⟨hcand, hchk⟩ := hstep
      rw [hcand] at hlast hedge
      have hmem : cand ∈ frontier :=
        (sort_by_distance_desc_perm frontier).subset
          (List.mem_of_getLast?_eq_some hlast)
      refine ⟨hchk.symm, hmem, hedge, ?_⟩
      intro t ht
      exact getLast_min_of_sorted _ cand (sort_by_distance_desc_sorted frontier)
        hlast t ((sort_by_distance_desc_perm frontier).mem_iff.mpr ht)
    · simp at hstep

theorem search_step_next_spec (h : Nat) (unfound : List Location)
    (frontier checked : List PathStep) (u : List Location)
    (f c : List PathStep)
    (hstep : search_step h unfound frontier checked = StepResult.next u f c) :
    ∃ cand, (sort_by_distance_desc frontier).getLast? = some cand ∧
      edge_square cand.location h = false ∧
      u = (expand cand (neighbours_in_unfound cand unfound) unfound
            (sort_by_distance_desc frontier).dropLast).1 ∧
      f = (expand cand (neighbours_in_unfound cand unfound) unfound
            (sort_by_distance_desc frontier).dropLast).2 ∧
      c = checked ++ [cand] := by
  unfold search_step at hstep
  simp only [] at hstep
  split at hstep
  · simp at hstep
  · rename_i cand hlast
    split at hstep
    · simp at hstep
    · rename_i hedge
      simp only [StepResult.next.injEq] at hstep
      obtain ⟨hu, hf, hc⟩ := hstep
      exact ⟨cand, hlast, by simpa using hedge, hu.symm, hf.symm, hc.symm⟩

/-! ### Preservation of the search invariant -/

theorem manhattan_comm (a b : Location) :
    a.manhattan_distance b = b.manhattan_distance a := by
  unfold Location.manhattan_distance abs_diff
  rw [Nat.max_comm a.x b.x, Nat.min_comm a.x b.x,
    Nat.max_comm a.y b.y, Nat.min_comm a.y b.y]

theorem manhattan_self (a : Location) : a.manhattan_distance a = 0 := by
  unfold Location.manhattan_distance abs_diff
  omega

theorem search_step_next_inv (s : List Char) (unfound : List Location)
    (frontier checked : List PathStep) (u : List Location) (f c : List PathStep)
    (hInv : Inv s unfound frontier checked)
    (hstep : search_step (height s) unfound frontier checked
      = StepResult.next u f c) :
    Inv s u f c := by
  obtain ⟨cand, hlast, hedge, hu, hf, hc⟩ :=
    search_step_next_spec _ _ _ _ _ _ _ hstep
  have hsne : sort_by_distance_desc frontier ≠ [] := by
    intro hnil; rw [hnil] at hlast; simp at hlast
  have hsd : (sort_by_distance_desc frontier).dropLast ++ [cand]
      = sort_by_distance_desc frontier := by
    have h1 := List.dropLast_append_getLast (l := sort_by_distance_desc frontier) hsne
    have h2 : (sort_by_distance_desc frontier).getLast hsne = cand := by
      have h3 := List.getLast?_eq_getLast (sort_by_distance_desc frontier) hsne
      rw [hlast] at h3
      exact (Option.some.injEq _ _).mp h3.symm
    rw [← h2]
    exact h1
  have hfr : frontier.Perm ((sort_by_distance_desc frontier).dropLast ++ [cand]) := by
    rw [hsd]
    exact (sort_by_distance_desc_perm frontier).symm
  have hmem_fr : ∀ t, t ∈ frontier ↔
      (t ∈ (sort_by_distance_desc frontier).dropLast ∨ t = cand) := by
    intro t
    rw [hfr.mem_iff]
    simp
  have hcand_fr : cand ∈ frontier := (hmem_fr cand).mpr (Or.inr rfl)
  have hcand_min : ∀ t ∈ frontier, cand.distance ≤ t.distance := by
    intro t ht
    exact getLast_min_of_sorted _ cand (sort_by_distance_desc_sorted frontier)
      hlast t ((sort_by_distance_desc_perm frontier).mem_iff.mpr ht)
  have hnbrs_mem : ∀ n, n ∈ neighbours_in_unfound cand unfound ↔
      (n ∈ unfound ∧ n.manhattan_distance cand.location = 1) := by
    intro n
    unfold neighbours_in_unfound
    rw [List.mem_filter]
    simp
  have hnbrs_sub : ∀ n ∈ neighbours_in_unfound cand unfound, n ∈ unfound :=
    fun n hn => ((hnbrs_mem n).mp hn).1
  have hnbrs_nodup : (neighbours_in_unfound cand unfound).Nodup :=
    hInv.nodup_unfound.filter _
  have hpushes : f = (sort_by_distance_desc frontier).dropLast ++
      (neighbours_in_unfound cand unfound).map (fun n =>
        PathStep.mk n (some cand.location) (cand.distance + 1)) := by
    rw [hf, expand_frontier_eq]
  have humem : ∀ l, l ∈ u ↔
      (l ∈ unfound ∧ l ∉ neighbours_in_unfound cand unfound) := by
    intro l
    rw [hu, (expand_unfound_perm cand _ unfound _ hnbrs_nodup hnbrs_sub).mem_iff,
      hInv.nodup_unfound.mem_diff_iff]
  have hunodup : u.Nodup := by
    rw [hu]
    exact ((expand_unfound_perm cand _ unfound _ hnbrs_nodup hnbrs_sub).nodup_iff).mpr
      ((List.diff_sublist _ _).nodup hInv.nodup_unfound)
  have hfmem : ∀ t, t ∈ f ↔
      (t ∈ (sort_by_distance_desc frontier).dropLast ∨
        ∃ n ∈ neighbours_in_unfound cand unfound,
          t = PathStep.mk n (some cand.location) (cand.distance + 1)) := by
    intro t
    rw [hpushes, List.mem_append, List.mem_map]
    constructor
    · rintro (h | ⟨n, hn, rfl⟩)
      · exact Or.inl h
      · exact Or.inr ⟨n, hn, rfl⟩
    · rintro (h | ⟨n, hn, rfl⟩)
      · exact Or.inl h
      · exact Or.inr ⟨n, hn, rfl⟩
  have hcmem : ∀ t, t ∈ c ↔ (t ∈ checked ∨ t = cand) := by
    intro t
    rw [hc, List.mem_append]
    simp
  have hsteps : ∀ t, t ∈ f ++ c ↔
      (t ∈ frontier ++ checked ∨
        ∃ n ∈ neighbours_in_unfound cand unfound,
          t = PathStep.mk n (some cand.location) (cand.distance + 1)) := by
    intro t
    rw [List.mem_append, List.mem_append, hfmem, hcmem, hmem_fr]
    constructor
    · rintro ((hdl | hex) | (hch | heq))
      · exact Or.inl (Or.inl (Or.inl hdl))
      · exact Or.inr hex
      · exact Or.inl (Or.inr hch)
      · exact Or.inl (Or.inl (Or.inr heq))
    · rintro (((hdl | heq) | hch) | hex)
      · exact Or.inl (Or.inl hdl)
      · exact Or.inr (Or.inr heq)
      · exact Or.inr (Or.inl hch)
      · exact Or.inl (Or.inr hex)
  have hlocs : ∀ l, l ∈ (f ++ c).map PathStep.location ↔
      (l ∈ (frontier ++ checked).map PathStep.location ∨
        l ∈ neighbours_in_unfound cand unfound) := by
    intro l
    rw [List.mem_map]
    constructor
    · rintro ⟨t, ht, rfl⟩
      rcases (hsteps t).mp ht with hold | ⟨n, hn, rfl⟩
      · exact Or.inl (List.mem_map.mpr ⟨t, hold, rfl⟩)
      · exact Or.inr hn
    · rintro (hold | hn)
      · obtain ⟨t, ht, rfl⟩ := List.mem_map.mp hold
        exact ⟨t, (hsteps t).mpr (Or.inl ht), rfl⟩
      · exact ⟨PathStep.mk l (some cand.location) (cand.distance + 1),
          (hsteps _).mpr (Or.inr ⟨l, hn, rfl⟩), rfl⟩
  have hlperm : ((f ++ c).map PathStep.location).Perm
      (((frontier ++ checked).map PathStep.location) ++
        neighbours_in_unfound cand unfound) := by
    rw [hpushes, hc]
    rw [← Multiset.coe_eq_coe]
    have hfr2 : (↑(frontier.map PathStep.location) : Multiset Location)
        = ↑(((sort_by_distance_desc frontier).dropLast ++ [cand]).map
            PathStep.location) := by
      rw [Multiset.coe_eq_coe]
      exact hfr.map _
    have hmapn : ((neighbours_in_unfound cand unfound).map (fun n =>
        PathStep.mk n (some cand.location) (cand.distance + 1))).map
          PathStep.location = neighbours_in_unfound cand unfound := by
      rw [List.map_map]
      rw [show (PathStep.location ∘ fun n =>
        PathStep.mk n (some cand.location) (cand.distance + 1)) = fun n => n
        from rfl]
      exact List.map_id' _
    simp only [List.map_append, ← Multiset.coe_add] at *
    rw [hmapn, hfr2]
    abel
  have hnodup_locs : ((f ++ c).map PathStep.location).Nodup := by
    rw [hlperm.nodup_iff, List.nodup_append]
    refine ⟨hInv.nodup_locs, hnbrs_nodup, ?_⟩
    intro l hl hln
    exact hInv.disj l (hnbrs_sub l hln) hl
  refine ⟨hnodup_locs, hunodup, ?_, ?_, ?_, ?_, ?_, ?_, ?_, ?_, ?_⟩
  · intro l hlu hlnew
    obtain ⟨hlun, hlnb⟩ := (humem l).mp hlu
    rcases (hlocs l).mp hlnew with hold | hnb
    · exact hInv.disj l hlun hold
    · exact hlnb hnb
  · intro l
    rw [hInv.partition l, humem, hlocs]
    constructor
    · rintro (hlun | hold)
      · by_cases hln : l ∈ neighbours_in_unfound cand unfound
        · exact Or.inr (Or.inr hln)
        · exact Or.inl ⟨hlun, hln⟩
      · exact Or.inr (Or.inl hold)
    · rintro (⟨hlun, _⟩ | hold | hnb)
      · exact Or.inl hlun
      · exact Or.inr hold
      · exact Or.inl (hnbrs_sub l hnb)
  · obtain ⟨t, ht, hloc, hdist⟩ := hInv.start_mem
    exact ⟨t, (hsteps t).mpr (Or.inl ht), hloc, hdist⟩
  · intro t ht hpar
    rcases (hsteps t).mp ht with hold | ⟨n, hn, rfl⟩
    · exact hInv.parent_none t hold hpar
    · exact Option.noConfusion hpar
  · intro t ht p hp
    rcases (hsteps t).mp ht with hold | ⟨n, hn, rfl⟩
    · obtain ⟨w, hw, hwloc, hwdist, hwadj⟩ := hInv.parent_link t hold p hp
      exact ⟨w, (hcmem w).mpr (Or.inl hw), hwloc, hwdist, hwadj⟩
    · simp only [] at hp
      have hpc : p = cand.location := by
        injection hp with h2
        exact h2.symm
      subst hpc
      refine ⟨cand, (hcmem cand).mpr (Or.inr rfl), rfl, rfl, ?_⟩
      show Adjacent cand.location n
      unfold Adjacent
      rw [manhattan_comm]
      exact ((hnbrs_mem n).mp hn).2
  · intro w hw
    rcases (hcmem w).mp hw with hold | hweq
    · exact hInv.checked_not_edge w hold
    · subst hweq
      exact hedge
  · intro w hw v hv
    rcases (hcmem w).mp hw with hwold | hweq
    · rcases (hfmem v).mp hv with hvdl | ⟨n, hn, rfl⟩
      · exact hInv.checked_le w hwold v ((hmem_fr v).mpr (Or.inl hvdl))
      · exact le_trans (hInv.checked_le w hwold cand hcand_fr) (by simp)
    · subst hweq
      rcases (hfmem v).mp hv with hvdl | ⟨n, hn, rfl⟩
      · exact hcand_min v ((hmem_fr v).mpr (Or.inl hvdl))
      · simp
  · intro v hv w hw
    rcases (hfmem v).mp hv with hvdl | ⟨n, hn, rfl⟩ <;>
      rcases (hfmem w).mp hw with hwdl | ⟨m, hm, rfl⟩
    · exact hInv.frontier_spread v ((hmem_fr v).mpr (Or.inl hvdl))
        w ((hmem_fr w).mpr (Or.inl hwdl))
    · have h1 := hInv.frontier_spread v ((hmem_fr v).mpr (Or.inl hvdl))
        cand hcand_fr
      simp only []
      omega
    · have h1 := hcand_min w ((hmem_fr w).mpr (Or.inl hwdl))
      simp only []
      omega
    · simp
  · intro w hw z hbg hadj
    rcases (hcmem w).mp hw with hwold | hweq
    · obtain ⟨t, ht, htloc, htle⟩ := hInv.expanded w hwold z hbg hadj
      rcases List.mem_append.mp ht with htfr | htch
      · rcases (hmem_fr t).mp htfr with htdl | rfl
        · exact ⟨t, List.mem_append.mpr (Or.inl ((hfmem t).mpr (Or.inl htdl))),
            htloc, htle⟩
        · exact ⟨t, List.mem_append.mpr (Or.inr ((hcmem t).mpr (Or.inr rfl))),
            htloc, htle⟩
      · exact ⟨t, List.mem_append.mpr (Or.inr ((hcmem t).mpr (Or.inl htch))),
          htloc, htle⟩
    · subst hweq
      rcases (hInv.partition z).mp hbg with hzun | hzold
      · have hzn : z ∈ neighbours_in_unfound w unfound := by
          rw [hnbrs_mem]
          refine ⟨hzun, ?_⟩
          rw [manhattan_comm]
          exact hadj
        refine ⟨PathStep.mk z (some w.location) (w.distance + 1),
          List.mem_append.mpr (Or.inl ((hfmem _).mpr (Or.inr ⟨z, hzn, rfl⟩))),
          rfl, by simp⟩
      · obtain ⟨t, ht, rfl⟩ := List.mem_map.mp hzold
        rcases List.mem_append.mp ht with htfr | htch
        · have htne : t ≠ w := by
            intro hEq
            subst hEq
            unfold Adjacent at hadj
            rw [manhattan_self] at hadj
            exact absurd hadj (by simp)
          rcases (hmem_fr t).mp htfr with htdl | hteq
          · exact ⟨t, List.mem_append.mpr (Or.inl ((hfmem t).mpr (Or.inl htdl))),
              rfl, hInv.frontier_spread t htfr w hcand_fr⟩
          · exact absurd hteq htne
        · exact ⟨t, List.mem_append.mpr (Or.inr ((hcmem t).mpr (Or.inl htch))),
            rfl, le_trans (hInv.checked_le t htch w hcand_fr) (by simp)⟩

/-! ### The initial search state satisfies the invariant -/

theorem split_newlines_ne_nil : ∀ s : List Char, split_newlines s ≠ [] := by
  intro s
  cases s with
  | nil => simp [split_newlines]
  | cons c rest =>
    unfold split_newlines
    by_cases hc : c = '\n'
    · simp [hc]
    · simp only [if_neg hc]
      cases split_newlines rest <;> simp

theorem height_pos (s : List Char) (hne : s ≠ []) : 1 ≤ height s := by
  unfold height rust_lines
  simp only []
  cases hsp : split_newlines s with
  | nil => exact absurd hsp (split_newlines_ne_nil s)
  | cons p ps =>
    cases ps with
    | nil =>
      have hp : p ≠ [] := by
        cases s with
        | nil => exact absurd rfl hne
        | cons c rest =>
          unfold split_newlines at hsp
          by_cases hc : c = '\n'
          · rw [if_pos hc] at hsp
            have : split_newlines rest = [] := (List.cons.injEq _ _ _ _).mp hsp |>.2
            exact absurd this (split_newlines_ne_nil rest)
          · rw [if_neg hc] at hsp
            cases hsr : split_newlines rest with
            | nil => exact absurd hsr (split_newlines_ne_nil rest)
            | cons l ls =>
              rw [hsr] at hsp
              have : c :: l = p := ((List.cons.injEq _ _ _ _).mp hsp).1
              rw [← this]
              simp
      cases p with
      | nil => exact absurd rfl hp
      | cons a as => simp
    | cons q qs => simp

/-- Membership in the initial `unfound` pool: exactly the in-bounds
background cells other than the centre. -/
theorem mem_start_unfound (s : List Char) (l : Location) :
    l ∈ start_unfound s ↔
      (l.x < height s ∧ l.y < height s ∧
        character_at l.x l.y s = background_character s ∧ l ≠ centre s) := by
  unfold start_unfound
  rw [List.mem_flatMap]
  constructor
  · rintro ⟨y, hy, hmem⟩
    rw [List.mem_filterMap] at hmem
    obtain ⟨x, hx, heq⟩ := hmem
    by_cases hcond : (character_at x y s == background_character s &&
        !(Location.mk x y == centre s)) = true
    · rw [if_pos hcond] at heq
      cases heq
      rw [List.mem_range] at hy hx
      rw [Bool.and_eq_true, beq_iff_eq, Bool.not_eq_true', beq_eq_false_iff_ne]
        at hcond
      exact ⟨hx, hy, hcond.1, hcond.2⟩
    · rw [if_neg hcond] at heq
      exact absurd heq (by simp)
  · rintro ⟨hx, hy, hbg, hnc⟩
    refine ⟨l.y, List.mem_range.mpr hy, ?_⟩
    rw [List.mem_filterMap]
    refine ⟨l.x, List.mem_range.mpr hx, ?_⟩
    have hl : Location.mk l.x l.y = l := rfl
    rw [if_pos (by
      rw [Bool.and_eq_true, beq_iff_eq, Bool.not_eq_true', beq_eq_false_iff_ne, hl]
      exact ⟨hbg, hnc⟩)]

theorem mem_start_unfound_row (s : List Char) (y : Nat) (l : Location)
    (hl : l ∈ (List.range (height s)).filterMap (fun x =>
      if character_at x y s == background_character s &&
          !(Location.mk x y == centre s)
      then some (Location.mk x y) else none)) : l.y = y := by
  rw [List.mem_filterMap] at hl
  obtain ⟨x, _, heq⟩ := hl
  split at heq
  · cases heq
    rfl
  · exact absurd heq (by simp)

theorem start_unfound_nodup (s : List Char) : (start_unfound s).Nodup := by
  unfold start_unfound
  rw [List.nodup_flatMap]
  constructor
  · intro y _
    refine List.Nodup.filterMap ?_ (List.nodup_range _)
    intro a b l ha hb
    rw [Option.mem_def] at ha hb
    split at ha
    · split at hb
      · have h1 : Location.mk a y = l := by injection ha
        have h2 : Location.mk b y = l := by injection hb
        rw [← h2] at h1
        exact ((Location.mk.injEq a y b y).mp h1).1
      · exact absurd hb (by simp)
    · exact absurd ha (by simp)
  · refine (List.pairwise_lt_range _).imp ?_
    intro y1 y2 hlt
    intro l hl1 hl2
    have h1 := mem_start_unfound_row s y1 l hl1
    have h2 := mem_start_unfound_row s y2 l hl2
    omega

/-- The initial state of `path_out_of_circle` satisfies the search
invariant whenever the grid has at least one row. -/
theorem initial_inv (s : List Char) (h1 : 1 ≤ height s) :
    Inv s (start_unfound s) [PathStep.mk (centre s) none 0] [] := by
  have hcentre_bg : bg_cell s (centre s) := by
    refine ⟨?_, ?_, rfl⟩
    · show radius s < height s
      unfold radius
      omega
    · show radius s < height s
      unfold radius
      omega
  refine ⟨by simp, start_unfound_nodup s, ?_, ?_, ?_, ?_, ?_, ?_, ?_, ?_, ?_⟩
  · intro l hl
    rw [mem_start_unfound] at hl
    intro hmem
    simp at hmem
    exact hl.2.2.2 hmem
  · intro l
    constructor
    · intro hbg
      by_cases hc : l = centre s
      · right
        simp [hc]
      · left
        rw [mem_start_unfound]
        exact ⟨hbg.1, hbg.2.1, hbg.2.2, hc⟩
    · intro h
      rcases h with hu | hc
      · rw [mem_start_unfound] at hu
        exact ⟨hu.1, hu.2.1, hu.2.2.1⟩
      · simp at hc
        rw [hc]
        exact hcentre_bg
  · exact ⟨PathStep.mk (centre s) none 0, by simp, rfl, rfl⟩
  · intro t ht hp
    simp at ht
    subst ht
    exact ⟨rfl, rfl⟩
  · intro t ht p hp
    simp at ht
    subst ht
    exact absurd hp (by simp)
  · intro u hu
    simp at hu
  · intro u hu
    simp at hu
  · intro v hv w hw
    simp at hv hw
    subst hv
    subst hw
    simp
  · intro u hu
    simp at hu

/-! ### The frontier cuts every background path from the centre -/

theorem climb (s : List Char) (unfound : List Location)
    (frontier checked : List PathStep)
    (hInv : Inv s unfound frontier checked) :
    ∀ p : List Location, p ≠ [] → p.head? = some (centre s) →
      (∀ l ∈ p, bg_cell s l) → p.Chain' Adjacent →
      (∃ t ∈ frontier, ∃ q, q <+: p ∧ q ≠ [] ∧
        q.getLast? = some t.location ∧ t.distance + 1 ≤ q.length) ∨
      (∃ u ∈ checked, p.getLast? = some u.location ∧
        u.distance + 1 ≤ p.length) := by
  intro p
  induction p using List.reverseRecOn with
  | nil => intro hne; exact absurd rfl hne
  | append_singleton q x ih =>
    intro hne hhead hbg hchain
    by_cases hq : q = []
    · subst hq
      simp at hhead
      obtain ⟨t, ht, htloc, htd⟩ := hInv.start_mem
      rcases List.mem_append.mp ht with htf | htc
      · left
        exact ⟨t, htf, [x], List.prefix_refl _, by simp,
          by simp [htloc, hhead], by simp [htd]⟩
      · right
        exact ⟨t, htc, by simp [htloc, hhead], by simp [htd]⟩
    · have hchainq : q.Chain' Adjacent := hchain.prefix (List.prefix_append q [x])
      have hheadq : q.head? = some (centre s) := by
        rw [List.head?_append, List.head?_eq_head hq] at hhead
        rw [List.head?_eq_head hq]
        simpa using hhead
      have hbgq : ∀ l ∈ q, bg_cell s l :=
        fun l hl => hbg l (List.mem_append.mpr (Or.inl hl))
      rcases ih hq hheadq hbgq hchainq with
        ⟨t, htf, r, hpre, hrne, hrlast, hrlen⟩ | ⟨u, huc, hlast, hlen⟩
      · left
        exact ⟨t, htf, r, hpre.trans (List.prefix_append q [x]), hrne, hrlast,
          hrlen⟩
      · have hadj : Adjacent u.location x := by
          rw [List.chain'_append] at hchain
          exact hchain.2.2 u.location (Option.mem_def.mpr hlast) x (by simp)
        have hx_bg : bg_cell s x := hbg x (by simp)
        obtain ⟨t, ht, htloc, htle⟩ := hInv.expanded u huc x hx_bg hadj
        rcases List.mem_append.mp ht with htf | htc
        · left
          refine ⟨t, htf, q ++ [x], List.prefix_refl _, by simp, ?_, ?_⟩
          · rw [List.getLast?_concat, htloc]
          · simp only [List.length_append, List.length_cons, List.length_nil]
            omega
        · right
          refine ⟨t, htc, ?_, ?_⟩
          · rw [List.getLast?_concat, htloc]
          · simp only [List.length_append, List.length_cons, List.length_nil]
            omega

/-! ### The parent-chain walk under the invariant -/

theorem walk_spec (s : List Char) (unfound : List Location)
    (frontier checked : List PathStep) (hInv : Inv s unfound frontier checked) :
    ∀ (k : Nat) (t : PathStep), t ∈ frontier ++ checked → t.distance = k →
      ∃ p, path_squares_walk checked k t = some p ∧
        p.length = k + 1 ∧
        p.head? = some t.location ∧
        p.getLast? = some (centre s) ∧
        (∀ l ∈ p, ∃ w ∈ frontier ++ checked, w.location = l) ∧
        (∀ l ∈ p.tail, ∃ w ∈ checked, w.location = l) ∧
        p.reverse.Chain' Adjacent := by
  intro k
  induction k with
  | zero =>
    intro t ht hd
    cases hpar : t.parent with
    | none =>
      have h0 := hInv.parent_none t ht hpar
      refine ⟨[t.location], ?_, by simp, by simp, by simp [h0.1], ?_,
        by simp, by simp⟩
      · unfold path_squares_walk
        rw [hpar]
      · intro l hl
        simp at hl
        exact ⟨t, ht, by rw [hl]⟩
    | some p0 =>
      obtain ⟨u, _, _, hud, _⟩ := hInv.parent_link t ht p0 hpar
      omega
  | succ k ihk =>
    intro t ht hd
    cases hpar : t.parent with
    | none =>
      have h0 := hInv.parent_none t ht hpar
      omega
    | some p0 =>
      obtain ⟨u, hu, huloc, hud, hadj⟩ := hInv.parent_link t ht p0 hpar
      have hudk : u.distance = k := by omega
      have hlookup : parent_lookup checked p0 = some u := by
        unfold parent_lookup
        have humem : u ∈ checked.filter (fun w => w.location == p0) := by
          rw [List.mem_filter]
          exact ⟨hu, by simp [huloc]⟩
        cases hf : (checked.filter (fun w => w.location == p0)).head? with
        | none =>
          rw [List.head?_eq_none_iff] at hf
          rw [hf] at humem
          exact absurd humem (by simp)
        | some w =>
          have hwmem : w ∈ checked.filter (fun v => v.location == p0) :=
            List.mem_of_mem_head? (Option.mem_def.mpr hf)
          rw [List.mem_filter] at hwmem
          have hwloc : w.location = p0 := by simpa using hwmem.2
          have huw : u = w := by
            refine List.inj_on_of_nodup_map hInv.nodup_locs
              (List.mem_append.mpr (Or.inr hu))
              (List.mem_append.mpr (Or.inr hwmem.1)) ?_
            rw [huloc, hwloc]
          rw [huw]
      obtain ⟨pl, hw, hlen, hhead, hlast, hmemall, hmemtail, hchain⟩ :=
        ihk u (List.mem_append.mpr (Or.inr hu)) hudk
      have hplne : pl ≠ [] := by
        intro hnil
        rw [hnil] at hlen
        simp at hlen
      refine ⟨t.location :: pl, ?_, by simp [hlen], by simp, ?_, ?_, ?_, ?_⟩
      · unfold path_squares_walk
        rw [hpar]
        show (match parent_lookup checked p0 with
          | none => none
          | some parent_step =>
            (path_squares_walk checked k parent_step).map
              (fun rest => t.location :: rest)) = some (t.location :: pl)
        rw [hlookup]
        show (path_squares_walk checked k u).map
          (fun rest => t.location :: rest) = some (t.location :: pl)
        rw [hw]
        rfl
      · cases pl with
        | nil => exact absurd rfl hplne
        | cons a rest =>
          rw [List.getLast?_cons_cons]
          exact hlast
      · intro l hl
        rcases List.mem_cons.mp hl with rfl | hlp
        · exact ⟨t, ht, rfl⟩
        · exact hmemall l hlp
      · intro l hl
        rw [List.tail_cons] at hl
        cases pl with
        | nil => exact absurd rfl hplne
        | cons a rest =>
          have ha : a = u.location := by
            simp at hhead
            exact hhead
          rcases List.mem_cons.mp hl with rfl | hlrest
          · exact ⟨u, hu, ha.symm⟩
          · exact hmemtail l (by simpa using hlrest)
      · rw [show (t.location :: pl).reverse = pl.reverse ++ [t.location] from by
          simp]
        rw [List.chain'_append]
        refine ⟨hchain, by simp, ?_⟩
        intro y hy z hz
        rw [List.getLast?_reverse] at hy
        rw [Option.mem_def] at hy hz
        rw [hhead] at hy
        have hyu : y = u.location := by injection hy with h2; exact h2.symm
        have hzt : z = t.location := by
          simp at hz
          exact hz.symm
        rw [hyu, hzt, ← huloc] at *
        exact hadj

/-! ### Correctness of the iterated search loop -/

theorem search_go_spec (s : List Char) :
    ∀ (fuel : Nat) (unfound : List Location) (frontier checked : List PathStep),
      unfound.length + frontier.length < fuel →
      Inv s unfound frontier checked →
      (search_go (height s) fuel unfound frontier checked = none →
        ¬ escape_exists s) ∧
      (∀ cand chk,
        search_go (height s) fuel unfound frontier checked = some (cand, chk) →
        ∃ p, path_squares_walk chk cand.distance cand = some p ∧
          p.length = cand.distance + 1 ∧
          p.head? = some cand.location ∧
          escape_path s p.reverse ∧
          (∀ l ∈ p.tail, ∃ w ∈ chk, w.location = l) ∧
          (∀ q, escape_path s q → cand.distance + 1 ≤ q.length)) := by
  intro fuel
  induction fuel with
  | zero =>
    intro uf fr ch hlt _
    omega
  | succ fuel ih =>
    intro uf fr ch hlt hinv
    constructor
    · intro hnone hesc
      cases hstep : search_step (height s) uf fr ch with
      | exhausted =>
        have hfr : fr = [] := (search_step_exhausted_iff _ _ _ _).mp hstep
        obtain ⟨q, hqbg, hqchain, hqhead, e, hqlast, hqedge⟩ := hesc
        have hqne : q ≠ [] := by
          intro h
          rw [h] at hqhead
          exact absurd hqhead (by simp)
        rcases climb s uf fr ch hinv q hqne hqhead hqbg hqchain with
          ⟨t, htf, _⟩ | ⟨u, huc, hulast, _⟩
        · rw [hfr] at htf
          simp at htf
        · have hue : u.location = e := by
            rw [hulast] at hqlast
            injection hqlast
          have hnotedge := hinv.checked_not_edge u huc
          rw [hue] at hnotedge
          rw [hnotedge] at hqedge
          exact absurd hqedge (by simp)
      | found c0 chk0 =>
        unfold search_go at hnone
        rw [hstep] at hnone
        exact absurd hnone (by simp)
      | next u f c =>
        have hmeas := search_step_next_measure (height s) uf fr ch u f c hstep
        have hinv2 := search_step_next_inv s uf fr ch u f c hinv hstep
        have hrec : search_go (height s) fuel u f c = none := by
          unfold search_go at hnone
          rw [hstep] at hnone
          exact hnone
        exact (ih u f c (by omega) hinv2).1 hrec hesc
    · intro cand chk hsome
      cases hstep : search_step (height s) uf fr ch with
      | exhausted =>
        unfold search_go at hsome
        rw [hstep] at hsome
        exact absurd hsome (by simp)
      | next u f c =>
        have hmeas := search_step_next_measure (height s) uf fr ch u f c hstep
        have hinv2 := search_step_next_inv s uf fr ch u f c hinv hstep
        have hrec : search_go (height s) fuel u f c = some (cand, chk) := by
          unfold search_go at hsome
          rw [hstep] at hsome
          exact hsome
        exact (ih u f c (by omega) hinv2).2 cand chk hrec
      | found c0 chk0 =>
        have heq : c0 = cand ∧ chk0 = chk := by
          unfold search_go at hsome
          rw [hstep] at hsome
          have h2 : (c0, chk0) = (cand, chk) := by
            injection hsome
          exact ⟨congrArg Prod.fst h2, congrArg Prod.snd h2⟩
        obtain ⟨h1eq, h2eq⟩ := heq
        subst h1eq
        subst h2eq
        obtain ⟨hchk, hcand_fr, hedge, hmin⟩ :=
          search_step_found_spec _ uf fr ch c0 chk0 hstep
        subst hchk
        obtain ⟨p, hwalk, hlen, hhead, hlast, hmemall, hmemtail, hchain⟩ :=
          walk_spec s uf fr chk0 hinv c0.distance c0
            (List.mem_append.mpr (Or.inl hcand_fr)) rfl
        refine ⟨p, hwalk, hlen, hhead, ?_, hmemtail, ?_⟩
        · refine ⟨?_, hchain, ?_, c0.location, ?_, hedge⟩
          · intro l hl
            rw [List.mem_reverse] at hl
            obtain ⟨w, hw, hwloc⟩ := hmemall l hl
            exact (hinv.partition l).mpr (Or.inr (List.mem_map.mpr ⟨w, hw, hwloc⟩))
          · rw [List.head?_reverse]
            exact hlast
          · rw [List.getLast?_reverse]
            exact hhead
        · intro q hq
          obtain ⟨hqbg, hqchain, hqhead, e, hqlast, hqedge⟩ := hq
          have hqne : q ≠ [] := by
            intro h
            rw [h] at hqhead
            exact absurd hqhead (by simp)
          rcases climb s uf fr chk0 hinv q hqne hqhead hqbg hqchain with
            ⟨t, htf, r, hpre, hrne, hrlast, hrlen⟩ | ⟨u2, huc, hulast, _⟩
          · have hd1 : c0.distance ≤ t.distance := hmin t htf
            have hd2 : r.length ≤ q.length := hpre.length_le
            omega
          · have hue : u2.location = e := by
              rw [hulast] at hqlast
              injection hqlast
            have hnotedge := hinv.checked_not_edge u2 huc
            rw [hue] at hnotedge
            rw [hnotedge] at hqedge
            exact absurd hqedge (by simp)

/-! ### Claim C2: the search finds an escape path iff one exists, minimal -/

/-- C2: for every structurally valid grid, `path_out_of_circle` returns
`none` iff there is no path of 4-adjacent background cells from the centre
to a border cell; and when it returns a diagram, the popped step's parent
chain yields such an escape path with exactly `distance + 1` cells, of
minimal hop count among all escape paths. -/
theorem claim2_path_out_of_circle_correct (s : List Char) (hne : s ≠ [])
    (_hsq : square s = true) (_hodd : odd s = true)
    (_h2 : (distinct_characters s).length = 2)
    (_hmb : missing_background_characters s = []) :
    (path_out_of_circle s = none ↔ ¬ escape_exists s) ∧
    (∀ d, path_out_of_circle s = some d →
      ∃ cand chk p,
        search_loop (height s) (start_unfound s)
          [PathStep.mk (centre s) none 0] [] = some (cand, chk) ∧
        d = path_diagram cand chk s (height s) ∧
        path_squares_walk chk cand.distance cand = some p ∧
        escape_path s p.reverse ∧
        p.length = cand.distance + 1 ∧
        (∀ q, escape_path s q → cand.distance + 1 ≤ q.length)) := by
  have h1 : 1 ≤ height s := height_pos s hne
  have hinv := initial_inv s h1
  have hlt : (start_unfound s).length +
      ([PathStep.mk (centre s) none 0] : List PathStep).length <
      (start_unfound s).length +
        ([PathStep.mk (centre s) none 0] : List PathStep).length + 1 := by omega
  have hspec := search_go_spec s ((start_unfound s).length +
      ([PathStep.mk (centre s) none 0] : List PathStep).length + 1)
      (start_unfound s) [PathStep.mk (centre s) none 0] [] hlt hinv
  have hloop_eq : search_loop (height s) (start_unfound s)
      [PathStep.mk (centre s) none 0] []
      = search_go (height s) ((start_unfound s).length +
        ([PathStep.mk (centre s) none 0] : List PathStep).length + 1)
        (start_unfound s) [PathStep.mk (centre s) none 0] [] := rfl
  constructor
  · constructor
    · intro hnone
      have hsl : search_loop (height s) (start_unfound s)
          [PathStep.mk (centre s) none 0] [] = none := by
        unfold path_out_of_circle at hnone
        exact Option.map_eq_none'.mp hnone
      rw [hloop_eq] at hsl
      exact hspec.1 hsl
    · intro hnesc
      cases hloop : search_loop (height s) (start_unfound s)
          [PathStep.mk (centre s) none 0] [] with
      | none =>
        unfold path_out_of_circle
        rw [hloop]
        rfl
      | some pr =>
        obtain ⟨p, _, _, _, hescp, _, _⟩ :=
          hspec.2 pr.1 pr.2 (by rw [← hloop_eq, hloop])
        exact absurd ⟨p.reverse, hescp⟩ hnesc
  · intro d hd
    cases hloop : search_loop (height s) (start_unfound s)
        [PathStep.mk (centre s) none 0] [] with
    | none =>
      unfold path_out_of_circle at hd
      rw [hloop] at hd
      exact absurd hd (by simp)
    | some pr =>
      have hd2 : d = path_diagram pr.1 pr.2 s (height s) := by
        unfold path_out_of_circle at hd
        rw [hloop] at hd
        simp only [Option.map_some'] at hd
        injection hd with h3
        exact h3.symm
      obtain ⟨p, hwalk, hlen, hhead, hescp, htail, hmin⟩ :=
        hspec.2 pr.1 pr.2 (by rw [← hloop_eq, hloop])
      exact ⟨pr.1, pr.2, p, rfl, hd2, hwalk, hescp, hlen, hmin⟩

/-- Witness for C2 at the concrete 3×3 ring grid. -/
theorem claim2_witness :
    ((("###\n#.#\n###".data : List Char) ≠ []) ∧
      square ("###\n#.#\n###".data) = true ∧
      odd ("###\n#.#\n###".data) = true ∧
      (distinct_characters ("###\n#.#\n###".data)).length = 2 ∧
      missing_background_characters ("###\n#.#\n###".data) = []) ∧
    ((path_out_of_circle ("###\n#.#\n###".data) = none ↔
        ¬ escape_exists ("###\n#.#\n###".data)) ∧
      (∀ d, path_out_of_circle ("###\n#.#\n###".data) = some d →
        ∃ cand chk p,
          search_loop (height ("###\n#.#\n###".data))
            (start_unfound ("###\n#.#\n###".data))
            [PathStep.mk (centre ("###\n#.#\n###".data)) none 0] []
            = some (cand, chk) ∧
          d = path_diagram cand chk ("###\n#.#\n###".data)
              (height ("###\n#.#\n###".data)) ∧
          path_squares_walk chk cand.distance cand = some p ∧
          escape_path ("###\n#.#\n###".data) p.reverse ∧
          p.length = cand.distance + 1 ∧
          (∀ q, escape_path ("###\n#.#\n###".data) q →
            cand.distance + 1 ≤ q.length))) :=
  ⟨⟨by decide, by decide, by decide, by decide, by decide⟩,
    claim2_path_out_of_circle_correct ("###\n#.#\n###".data) (by decide)
      (by decide) (by decide) (by decide) (by decide)⟩

/-! ### Claim C10: the parent chain lives in the checked set -/

/-- C10: under the search invariant, the parent chain of any frontier step
(in particular of a popped candidate) can be walked without panicking: every
lookup in `checked` succeeds, every location after the head belongs to the
checked set, and the walk terminates at the start step at the centre. -/
theorem claim10_parent_chain_in_checked (s : List Char)
    (unfound : List Location) (frontier checked : List PathStep)
    (hInv : Inv s unfound frontier checked)
    (t : PathStep) (ht : t ∈ frontier) :
    ∃ p, path_squares_walk checked t.distance t = some p ∧
      p.head? = some t.location ∧
      p.getLast? = some (centre s) ∧
      (∀ l ∈ p.tail, ∃ w ∈ checked, w.location = l) := by
  obtain ⟨p, hw, _, hh, hl, _, htl, _⟩ :=
    walk_spec s unfound frontier checked hInv t.distance t
      (List.mem_append.mpr (Or.inl ht)) rfl
  exact ⟨p, hw, hh, hl, htl⟩

/-- Witness for C10 at the initial state of the 3×3 ring grid. -/
theorem claim10_witness :
    ∃ p, path_squares_walk ([] : List PathStep)
        (PathStep.mk (centre ("###\n#.#\n###".data)) none 0).distance
        (PathStep.mk (centre ("###\n#.#\n###".data)) none 0) = some p ∧
      p.head? = some (PathStep.mk (centre ("###\n#.#\n###".data)) none 0).location ∧
      p.getLast? = some (centre ("###\n#.#\n###".data)) ∧
      (∀ l ∈ p.tail, ∃ w ∈ ([] : List PathStep), w.location = l) :=
  claim10_parent_chain_in_checked ("###\n#.#\n###".data)
    (start_unfound ("###\n#.#\n###".data))
    [PathStep.mk (centre ("###\n#.#\n###".data)) none 0] []
    (initial_inv ("###\n#.#\n###".data) (by decide))
    (PathStep.mk (centre ("###\n#.#\n###".data)) none 0) (by simp)

/-- C7: for every square grid of odd side with exactly two distinct symbols
and no misplaced background cell, `validate_text_circle` produces exactly one
of the escape-path report and the valid report, and the radius reported in
the valid message is `height s / 2` with truncating division. -/
theorem claim7_valid_or_escape (s : List Char)
    (hne : s ≠ []) (hsq : square s = true) (hodd : odd s = true)
    (h2 : (distinct_characters s).length = 2)
    (hmb : missing_background_characters s = []) :
    (∃ d, path_out_of_circle s = some d ∧
      validate_text_circle s =
        "Invalid. There should not be a path from inside the circle to outside:<br><br><code>"
          ++ d ++ "</code>") ∨
    (path_out_of_circle s = none ∧
      validate_text_circle s =
        "This is a valid text circle of radius " ++ toString (height s / 2) ++ ".") := by
  have hlen : (s.length == 0) = false := by
    cases s with
    | nil => exact absurd rfl hne
    | cons a l => rfl
  unfold validate_text_circle
  rw [if_neg (by rw [hlen]; simp)]
  rw [if_neg (by rw [hsq]; simp)]
  rw [if_neg (by rw [hodd]; simp)]
  rw [if_neg (by rw [h2]; simp)]
  simp only []
  rw [hmb]
  rw [if_neg (by simp)]
  cases hpath : path_out_of_circle s with
  | none =>
    right
    exact ⟨rfl, rfl⟩
  | some d =>
    left
    exact ⟨d, rfl, rfl⟩

/-- Witness for C7: the 3×3 ring is structurally valid and yields the valid
report of radius 1. -/
theorem claim7_witness :
    (("###\n#.#\n###".data ≠ []) ∧ square ("###\n#.#\n###".data) = true ∧
      odd ("###\n#.#\n###".data) = true ∧
      (distinct_characters ("###\n#.#\n###".data)).length = 2 ∧
      missing_background_characters ("###\n#.#\n###".data) = []) ∧
    ((∃ d, path_out_of_circle ("###\n#.#\n###".data) = some d ∧
      validate_text_circle ("###\n#.#\n###".data) =
        "Invalid. There should not be a path from inside the circle to outside:<br><br><code>"
          ++ d ++ "</code>") ∨
    (path_out_of_circle ("###\n#.#\n###".data) = none ∧
      validate_text_circle ("###\n#.#\n###".data) =
        "This is a valid text circle of radius "
          ++ toString (height ("###\n#.#\n###".data) / 2) ++ ".")) :=
  ⟨⟨by decide, by decide, by decide, by decide, by decide⟩,
    claim7_valid_or_escape ("###\n#.#\n###".data) (by decide) (by decide)
      (by decide) (by decide) (by decide)⟩

/-! ### Claim C6: every loop iteration shrinks the search measure -/

/-- C6: every continuing iteration of the escape-path search strictly shrinks
`unfound.length + frontier.length` (it removes exactly the expanded
neighbours from the unfound pool and exchanges the popped candidate for
them on the frontier), so the loop over the finite set of background cells
always terminates at a border cell or an empty frontier — this measure is
what justifies the recursion in `search_loop`. -/
theorem claim6_search_step_decreases (h : Nat) (unfound : List Location)
    (frontier checked : List PathStep) (u : List Location) (f c : List PathStep)
    (hstep : search_step h unfound frontier checked = StepResult.next u f c) :
    u.length + f.length < unfound.length + frontier.length := by
  have := search_step_next_measure h unfound frontier checked u f c hstep
  omega

/-- Witness for C6: a concrete non-final iteration on a 3×3 state. -/
theorem claim6_witness :
    search_step 3 [Location.mk 1 0] [PathStep.mk (Location.mk 1 1) none 0] []
      = StepResult.next []
          [PathStep.mk (Location.mk 1 0) (some (Location.mk 1 1)) 1]
          [PathStep.mk (Location.mk 1 1) none 0] ∧
    ([] : List Location).length +
        [PathStep.mk (Location.mk 1 0) (some (Location.mk 1 1)) 1].length <
      [Location.mk 1 0].length + [PathStep.mk (Location.mk 1 1) none 0].length :=
  ⟨by decide, claim6_search_step_decreases 3 [Location.mk 1 0]
    [PathStep.mk (Location.mk 1 1) none 0] [] []
    [PathStep.mk (Location.mk 1 0) (some (Location.mk 1 1)) 1]
    [PathStep.mk (Location.mk 1 1) none 0] (by decide)⟩

end TextCircle
